import Mathlib

/-!
Verification of the git-repository dependency-graph visualizer (`main.py`).

The development shallowly embeds the object-store reader, header parser,
commit decoder, tree decoder, history walker, tree differ, full-tree
enumerator and dependency-graph builder of the source.

Modelling conventions:
* Python `bytes` are `List Nat` (each element a byte value `< 256`);
  Python `str` is `List Char` (`Str` below).
* The filesystem and zlib are external collaborators: the object store is
  an association list from hash (40-char hex string) to the *decompressed*
  bytes of the loose object, and the git directory carries the contents of
  `HEAD` and of ref files.  A missing key models a missing file.
* Python `dict` is an association list with insert-or-overwrite keeping the
  original position (CPython semantics); Python `set` is a duplicate-free
  list (`setAdd`); set iteration order is an artifact the claims never
  depend on, membership is what matters.
* Every Python exception site is a tagged variant of `PyErr`; `RuntimeError`
  sites are the variants with `isRuntimeError = true`, matching the
  `except RuntimeError` handler in `build_dependency_graph`.
* Unbounded loops (the history walk, the recursive tree traversal, the
  tree-entry loop) are fuel-indexed; `none` means the fuel ran out.  Fuel
  only turns runs into `none`: whenever the model returns `some r`, the
  Python loop performs exactly the same steps and returns `r`.
-/

namespace GitViz

abbrev Str : Type := List Char

abbrev Bytes : Type := List Nat

/-- Python `str.split(sep)` for a one-character separator, no maxsplit:
`"a  b".split(' ') = ['a', '', 'b']`, `''.split(' ') = ['']`. -/
def splitOnChar (c : Char) : Str → List Str
  | [] => [[]]
  | x :: xs =>
    if x = c then [] :: splitOnChar c xs
    else
      match splitOnChar c xs with
      | [] => [[x]]
      | y :: ys => (x :: y) :: ys

/-- Python `str.split(sep, maxsplit)` for a one-character separator. -/
def splitAtMost (c : Char) : Nat → Str → List Str
  | 0, s => [s]
  | _ + 1, [] => [[]]
  | n + 1, x :: xs =>
    if x = c then [] :: splitAtMost c n xs
    else
      match splitAtMost c (n + 1) xs with
      | [] => [[x]]
      | y :: ys => (x :: y) :: ys

/-- Python `str.rsplit(sep, maxsplit)`: split from the right. -/
def rsplitAtMost (c : Char) (n : Nat) (s : Str) : List Str :=
  ((splitAtMost c n s.reverse).map List.reverse).reverse

/-- The line-break characters recognised by Python `str.splitlines`. -/
def isLineBreak (c : Char) : Bool :=
  c = '\n' || c = '\r' || c = '\x0b' || c = '\x0c' ||
  c = '\x1c' || c = '\x1d' || c = '\x1e' || c = '\x85' ||
  c = ' ' || c = ' '

/-- Worker for `splitLinesPy`; `cur` is the current line, reversed. -/
def splitLinesGo (cur : Str) : Str → List Str
  | [] => if cur = [] then [] else [cur.reverse]
  | '\r' :: '\n' :: rest => cur.reverse :: splitLinesGo [] rest
  | c :: rest =>
    if isLineBreak c then cur.reverse :: splitLinesGo [] rest
    else splitLinesGo (c :: cur) rest

/-- Python `str.splitlines()`: `"a\nb\n".splitlines() = ["a", "b"]`,
`"".splitlines() = []`, `\r\n` is a single break. -/
def splitLinesPy (s : Str) : List Str := splitLinesGo [] s

/-- The characters stripped by Python `str.strip()` (the ASCII whitespace
set; the rare non-ASCII unicode spaces never occur in the inputs the
source strips: `HEAD` and ref-file contents). -/
def isPyWs (c : Char) : Bool :=
  c = ' ' || c = '\t' || c = '\n' || c = '\r' || c = '\x0b' || c = '\x0c'

/-- Python `str.strip()`. -/
def stripPy (s : Str) : Str :=
  ((s.dropWhile isPyWs).reverse.dropWhile isPyWs).reverse

/-- Python `bytes.find(b, i)` restricted to the suffix starting at `i`:
index of the first occurrence of byte `b`, or `none` (Python's `-1`). -/
def findByte (b : Nat) : Bytes → Option Nat
  | [] => none
  | x :: xs =>
    if x = b then some 0
    else (findByte b xs).map (· + 1)

/-- One lowercase hex digit. -/
def hexDigit (n : Nat) : Char :=
  if n < 10 then Char.ofNat (48 + n) else Char.ofNat (87 + n)

/-- Python `'{:02x}'.format(b)` for a byte value `b < 256`. -/
def hexByte (b : Nat) : Str := [hexDigit (b / 16), hexDigit (b % 16)]

/-- The `''.join('{:02x}'.format(b) for b in bs)`. -/
def hexOfBytes (bs : Bytes) : Str := bs.flatMap hexByte

/-- Python `set.add`: a duplicate-free list, insertion appends. -/
def setAdd {α : Type} [DecidableEq α] (s : List α) (x : α) : List α :=
  if x ∈ s then s else s ++ [x]

/-- Python `dict` lookup (`d.get(k)` / `d[k]`), first binding wins. -/
def pyDictGet {α β : Type} [DecidableEq α] (d : List (α × β)) (k : α) : Option β :=
  (d.find? (fun p => p.1 = k)).map (·.2)

/-- Python `dict` assignment `d[k] = v`: overwrite in place, else append. -/
def pyDictInsert {α β : Type} [DecidableEq α] (d : List (α × β)) (k : α) (v : β) :
    List (α × β) :=
  if (d.find? (fun p => p.1 = k)).isSome then
    d.map (fun p => if p.1 = k then (k, v) else p)
  else d ++ [(k, v)]

/-- Python `set(l)`: deduplicate keeping first occurrences. -/
def pySetList {α : Type} [DecidableEq α] (l : List α) : List α :=
  l.foldl setAdd []

/- ### Basic lemmas about the helpers -/

theorem splitOnChar_ne_nil (c : Char) (s : Str) : splitOnChar c s ≠ [] := by
  induction s with
  | nil => simp [splitOnChar]
  | cons x xs ih =>
    simp only [splitOnChar]
    split
    · simp
    · cases h : splitOnChar c xs with
      | nil => simp
      | cons y ys => simp

theorem length_splitOnChar (c : Char) (s : Str) :
    (splitOnChar c s).length = s.count c + 1 := by
  induction s with
  | nil => simp [splitOnChar]
  | cons x xs ih =>
    simp only [splitOnChar]
    by_cases hx : x = c
    · subst hx
      simp [List.count_cons, ih]
    · rw [if_neg hx]
      cases h : splitOnChar c xs with
      | nil => exact absurd h (splitOnChar_ne_nil c xs)
      | cons y ys =>
        simp only [List.length_cons]
        rw [h] at ih
        simp only [List.length_cons] at ih
        simp [List.count_cons, hx, ih]

theorem mem_splitOnChar_not_mem (c : Char) (s : Str) :
    ∀ p ∈ splitOnChar c s, c ∉ p := by
  induction s with
  | nil => simp [splitOnChar]
  | cons x xs ih =>
    intro p hp
    simp only [splitOnChar] at hp
    by_cases hx : x = c
    · rw [if_pos hx] at hp
      rcases List.mem_cons.mp hp with rfl | hp
      · simp
      · exact ih p hp
    · rw [if_neg hx] at hp
      obtain ⟨y, ys, h⟩ : ∃ y ys, splitOnChar c xs = y :: ys := by
        cases h : splitOnChar c xs with
        | nil => exact absurd h (splitOnChar_ne_nil c xs)
        | cons y ys => exact ⟨y, ys, rfl⟩
      rw [h] at hp
      rcases List.mem_cons.mp hp with rfl | hp
      · intro hmem
        rcases List.mem_cons.mp hmem with h1 | h1
        · exact hx h1.symm
        · exact ih y (h ▸ List.mem_cons_self y ys) h1
      · exact ih p (h ▸ List.mem_cons_of_mem y hp)

theorem splitOnChar_not_mem (c : Char) (s : Str) (h : c ∉ s) :
    splitOnChar c s = [s] := by
  induction s with
  | nil => simp [splitOnChar]
  | cons x xs ih =>
    simp only [List.mem_cons, not_or] at h
    simp only [splitOnChar, if_neg (Ne.symm h.1)]
    rw [ih h.2]

theorem splitOnChar_append_sep (c : Char) (p r : Str) (h : c ∉ p) :
    splitOnChar c (p ++ c :: r) = p :: splitOnChar c r := by
  induction p with
  | nil => simp [splitOnChar]
  | cons x xs ih =>
    simp only [List.mem_cons, not_or] at h
    simp only [List.cons_append, List.append_eq, splitOnChar, if_neg (Ne.symm h.1)]
    rw [ih h.2]

theorem mem_setAdd {α : Type} [DecidableEq α] (s : List α) (x y : α) :
    y ∈ setAdd s x ↔ y ∈ s ∨ y = x := by
  unfold setAdd
  split
  · constructor
    · exact fun h => Or.inl h
    · rintro (h | rfl)
      · exact h
      · assumption
  · simp

theorem subset_setAdd {α : Type} [DecidableEq α] (s : List α) (x : α) :
    s ⊆ setAdd s x := by
  intro y hy
  exact (mem_setAdd s x y).mpr (Or.inl hy)

theorem mem_foldl_setAdd {α : Type} [DecidableEq α] (l : List α) :
    ∀ (init : List α) (x : α), x ∈ l.foldl setAdd init ↔ x ∈ init ∨ x ∈ l := by
  induction l with
  | nil => simp
  | cons a as ih =>
    intro init x
    simp only [List.foldl_cons]
    rw [ih]
    rw [mem_setAdd]
    constructor
    · rintro ((h | rfl) | h)
      · exact Or.inl h
      · simp
      · simp [h]
    · rintro (h | h)
      · exact Or.inl (Or.inl h)
      · rcases List.mem_cons.mp h with rfl | h
        · exact Or.inl (Or.inr rfl)
        · exact Or.inr h

theorem mem_pySetList {α : Type} [DecidableEq α] (l : List α) (x : α) :
    x ∈ pySetList l ↔ x ∈ l := by
  unfold pySetList
  rw [mem_foldl_setAdd]
  simp

theorem pyDictGet_isSome_iff {α β : Type} [DecidableEq α] (d : List (α × β)) (k : α) :
    (pyDictGet d k).isSome ↔ k ∈ d.map Prod.fst := by
  induction d with
  | nil => simp [pyDictGet]
  | cons p ps ih =>
    by_cases h : p.1 = k
    · rw [pyDictGet, List.find?_cons_of_pos _ (by simpa using h)]
      simp [h]
    · rw [pyDictGet, List.find?_cons_of_neg _ (by simpa using h)]
      rw [pyDictGet] at ih
      rw [ih, List.map_cons, List.mem_cons, or_iff_right (mt Eq.symm h)]

theorem findByte_eq_none (b : Nat) (bs : Bytes) (h : b ∉ bs) :
    findByte b bs = none := by
  induction bs with
  | nil => rfl
  | cons x xs ih =>
    simp only [List.mem_cons, not_or] at h
    simp only [findByte, if_neg (Ne.symm h.1)]
    rw [ih h.2]
    rfl

theorem findByte_append_of_not_mem (b : Nat) (p r : Bytes) (h : b ∉ p) :
    findByte b (p ++ r) = (findByte b r).map (· + p.length) := by
  induction p with
  | nil => simp
  | cons x xs ih =>
    simp only [List.mem_cons, not_or] at h
    simp only [List.cons_append, List.append_eq, findByte, if_neg (Ne.symm h.1)]
    rw [ih h.2]
    cases findByte b r with
    | none => rfl
    | some i =>
      simp [Nat.add_assoc]

theorem findByte_cons_self (b : Nat) (r : Bytes) : findByte b (b :: r) = some 0 := by
  simp [findByte]

/- ### UTF-8

`str.encode`/`bytes.decode('utf-8')` are modelled by a real UTF-8
codec: `utf8EncodeChar`/`utf8EncodeStr` and the strict decoder
`utf8DecodeStrict` (returns `none` exactly on invalid UTF-8, the
`UnicodeDecodeError` of the source's strict `decode('utf-8')` calls);
`decodeReplace` is `decode('utf-8', errors='replace')`, which substitutes
U+FFFD for each maximal invalid subpart and never fails. -/

/-- UTF-8 encoding of one scalar value. -/
def utf8EncodeChar (c : Char) : Bytes :=
  let n := c.toNat
  if n < 0x80 then [n]
  else if n < 0x800 then [0xC0 + n / 0x40, 0x80 + n % 0x40]
  else if n < 0x10000 then
    [0xE0 + n / 0x1000, 0x80 + n / 0x40 % 0x40, 0x80 + n % 0x40]
  else
    [0xF0 + n / 0x40000, 0x80 + n / 0x1000 % 0x40, 0x80 + n / 0x40 % 0x40,
      0x80 + n % 0x40]

/-- Python `str.encode('utf-8')`. -/
def utf8EncodeStr (s : Str) : Bytes := s.flatMap utf8EncodeChar

/-- Scalar value of a 2-byte sequence. -/
def utf8Val2 (b b2 : Nat) : Nat := (b - 0xC0) * 0x40 + (b2 - 0x80)

/-- Scalar value of a 3-byte sequence. -/
def utf8Val3 (b b2 b3 : Nat) : Nat :=
  (b - 0xE0) * 0x1000 + (b2 - 0x80) * 0x40 + (b3 - 0x80)

/-- Scalar value of a 4-byte sequence. -/
def utf8Val4 (b b2 b3 b4 : Nat) : Nat :=
  (b - 0xF0) * 0x40000 + (b2 - 0x80) * 0x1000 + (b3 - 0x80) * 0x40 + (b4 - 0x80)

/-- Strict decoding of one scalar value: rejects overlong forms,
surrogates and values above U+10FFFF, exactly as a conformant strict
UTF-8 decoder (CPython's) does. -/
def utf8DecodeOne : Bytes → Option (Char × Bytes)
  | [] => none
  | b :: bs =>
    if b < 0x80 then some (Char.ofNat b, bs)
    else if b < 0xC0 then none
    else if b < 0xE0 then
      match bs with
      | b2 :: r =>
        if 0x80 ≤ b2 ∧ b2 < 0xC0 ∧ 0x80 ≤ utf8Val2 b b2 then
          some (Char.ofNat (utf8Val2 b b2), r)
        else none
      | [] => none
    else if b < 0xF0 then
      match bs with
      | b2 :: b3 :: r =>
        if 0x80 ≤ b2 ∧ b2 < 0xC0 ∧ 0x80 ≤ b3 ∧ b3 < 0xC0 ∧
            0x800 ≤ utf8Val3 b b2 b3 ∧
            ¬(0xD800 ≤ utf8Val3 b b2 b3 ∧ utf8Val3 b b2 b3 < 0xE000) then
          some (Char.ofNat (utf8Val3 b b2 b3), r)
        else none
      | _ => none
    else if b < 0xF5 then
      match bs with
      | b2 :: b3 :: b4 :: r =>
        if 0x80 ≤ b2 ∧ b2 < 0xC0 ∧ 0x80 ≤ b3 ∧ b3 < 0xC0 ∧ 0x80 ≤ b4 ∧ b4 < 0xC0 ∧
            0x10000 ≤ utf8Val4 b b2 b3 b4 ∧ utf8Val4 b b2 b3 b4 < 0x110000 then
          some (Char.ofNat (utf8Val4 b b2 b3 b4), r)
        else none
      | _ => none
    else none

/-- Fuel-indexed strict decoding loop (fuel `≥` length always suffices). -/
def utf8DecGo : Nat → Bytes → Option Str
  | _, [] => some []
  | 0, _ :: _ => none
  | f + 1, b :: bs =>
    match utf8DecodeOne (b :: bs) with
    | none => none
    | some (c, rest) => (utf8DecGo f rest).map (c :: ·)

/-- Python `bytes.decode('utf-8')` (strict): `none` is `UnicodeDecodeError`. -/
def utf8DecodeStrict (bs : Bytes) : Option Str := utf8DecGo bs.length bs

/-- Length of the maximal subpart consumed by one U+FFFD replacement
(CPython `errors='replace'` behaviour). -/
def utf8ReplStep : Bytes → Nat
  | [] => 1
  | b :: rest =>
    if 0xE0 ≤ b ∧ b < 0xF5 then
      match rest with
      | [] => 1
      | b2 :: rest2 =>
        if (if b = 0xE0 then 0xA0 else if b = 0xF0 then 0x90 else 0x80) ≤ b2 ∧
            b2 < (if b = 0xED then 0xA0 else if b = 0xF4 then 0x90 else 0xC0) then
          if 0xF0 ≤ b then
            match rest2 with
            | b3 :: _ => if 0x80 ≤ b3 ∧ b3 < 0xC0 then 3 else 2
            | [] => 2
          else 2
        else 1
    else 1

/-- The replacement character U+FFFD. -/
def uFFFD : Char := Char.ofNat 0xFFFD

/-- Fuel-indexed replacing decoding loop. -/
def utf8ReplGo : Nat → Bytes → Str
  | _, [] => []
  | 0, _ :: _ => []
  | f + 1, b :: bs =>
    match utf8DecodeOne (b :: bs) with
    | some (c, rest) => c :: utf8ReplGo f rest
    | none => uFFFD :: utf8ReplGo f ((b :: bs).drop (utf8ReplStep (b :: bs)))

/-- Python `bytes.decode('utf-8', errors='replace')`: total. -/
def decodeReplace (bs : Bytes) : Str := utf8ReplGo bs.length bs

/- ### UTF-8 lemmas -/

theorem char_toNat_valid (c : Char) :
    c.toNat < 0xD800 ∨ (0xDFFF < c.toNat ∧ c.toNat < 0x110000) := by
  rcases c.valid with h | ⟨h1, h2⟩
  · exact Or.inl h
  · exact Or.inr ⟨h1, h2⟩

theorem char_toNat_ofNat {n : Nat} (h : n < 0xD800 ∨ (0xDFFF < n ∧ n < 0x110000)) :
    (Char.ofNat n).toNat = n := by
  rw [Char.ofNat, dif_pos h]
  rfl

theorem char_toNat_inj {a b : Char} (h : a.toNat = b.toNat) : a = b := by
  have h2 := congrArg Char.ofNat h
  rwa [Char.ofNat_toNat, Char.ofNat_toNat] at h2

theorem utf8EncodeChar_ne_nil (c : Char) : utf8EncodeChar c ≠ [] := by
  simp only [utf8EncodeChar]
  split_ifs <;> simp

theorem utf8DecodeOne_encodeChar (c : Char) (rest : Bytes) :
    utf8DecodeOne (utf8EncodeChar c ++ rest) = some (c, rest) := by
  have hv := char_toNat_valid c
  by_cases h1 : c.toNat < 0x80
  · rw [utf8EncodeChar]
    simp only [if_pos h1]
    simp only [List.cons_append, List.nil_append, utf8DecodeOne, if_pos h1]
    rw [Char.ofNat_toNat]
  · by_cases h2 : c.toNat < 0x800
    · rw [utf8EncodeChar]
      simp only [if_neg h1, if_pos h2]
      simp only [List.cons_append, List.nil_append, utf8DecodeOne,
        if_neg (by omega : ¬(0xC0 + c.toNat / 0x40 < 0x80)),
        if_neg (by omega : ¬(0xC0 + c.toNat / 0x40 < 0xC0)),
        if_pos (by omega : 0xC0 + c.toNat / 0x40 < 0xE0)]
      rw [if_pos (by unfold utf8Val2; omega)]
      have harg : utf8Val2 (0xC0 + c.toNat / 0x40) (0x80 + c.toNat % 0x40) = c.toNat := by
        unfold utf8Val2; omega
      rw [harg, Char.ofNat_toNat]
    · by_cases h3 : c.toNat < 0x10000
      · rw [utf8EncodeChar]
        simp only [if_neg h1, if_neg h2, if_pos h3]
        simp only [List.cons_append, List.nil_append, utf8DecodeOne,
          if_neg (by omega : ¬(0xE0 + c.toNat / 0x1000 < 0x80)),
          if_neg (by omega : ¬(0xE0 + c.toNat / 0x1000 < 0xC0)),
          if_neg (by omega : ¬(0xE0 + c.toNat / 0x1000 < 0xE0)),
          if_pos (by omega : 0xE0 + c.toNat / 0x1000 < 0xF0)]
        rw [if_pos (by unfold utf8Val3; omega)]
        have harg : utf8Val3 (0xE0 + c.toNat / 0x1000) (0x80 + c.toNat / 0x40 % 0x40)
            (0x80 + c.toNat % 0x40) = c.toNat := by
          unfold utf8Val3; omega
        rw [harg, Char.ofNat_toNat]
      · rw [utf8EncodeChar]
        simp only [if_neg h1, if_neg h2, if_neg h3]
        simp only [List.cons_append, List.nil_append, utf8DecodeOne,
          if_neg (by omega : ¬(0xF0 + c.toNat / 0x40000 < 0x80)),
          if_neg (by omega : ¬(0xF0 + c.toNat / 0x40000 < 0xC0)),
          if_neg (by omega : ¬(0xF0 + c.toNat / 0x40000 < 0xE0)),
          if_neg (by omega : ¬(0xF0 + c.toNat / 0x40000 < 0xF0)),
          if_pos (by omega : 0xF0 + c.toNat / 0x40000 < 0xF5)]
        rw [if_pos (by unfold utf8Val4; omega)]
        have harg : utf8Val4 (0xF0 + c.toNat / 0x40000) (0x80 + c.toNat / 0x1000 % 0x40)
            (0x80 + c.toNat / 0x40 % 0x40) (0x80 + c.toNat % 0x40) = c.toNat := by
          unfold utf8Val4; omega
        rw [harg, Char.ofNat_toNat]

theorem utf8DecodeOne_eq_some {bs : Bytes} {c : Char} {rest : Bytes}
    (h : utf8DecodeOne bs = some (c, rest)) : bs = utf8EncodeChar c ++ rest := by
  cases bs with
  | nil => simp [utf8DecodeOne] at h
  | cons b bs1 =>
    simp only [utf8DecodeOne] at h
    by_cases h1 : b < 0x80
    · rw [if_pos h1] at h
      simp only [Option.some.injEq, Prod.mk.injEq] at h
      obtain ⟨hc, hrest⟩ := h
      subst hc
      subst hrest
      have ht : (Char.ofNat b).toNat = b := char_toNat_ofNat (by omega)
      rw [utf8EncodeChar]
      simp only [ht, if_pos h1, List.cons_append, List.nil_append]
    · rw [if_neg h1] at h
      by_cases h2 : b < 0xC0
      · rw [if_pos h2] at h
        simp at h
      · rw [if_neg h2] at h
        by_cases h3 : b < 0xE0
        · rw [if_pos h3] at h
          cases bs1 with
          | nil => simp at h
          | cons b2 r =>
            dsimp only at h
            by_cases hc : 0x80 ≤ b2 ∧ b2 < 0xC0 ∧ 0x80 ≤ utf8Val2 b b2
            · rw [if_pos hc] at h
              simp only [Option.some.injEq, Prod.mk.injEq] at h
              obtain ⟨hch, hrest⟩ := h
              subst hrest
              obtain ⟨hc1, hc2, hc3⟩ := hc
              have hvlt : utf8Val2 b b2 < 0x800 := by unfold utf8Val2 at *; omega
              have ht : c.toNat = utf8Val2 b b2 := by
                rw [← hch, char_toNat_ofNat (by omega)]
              rw [utf8EncodeChar]
              simp only [if_neg (by omega : ¬(c.toNat < 0x80)),
                if_pos (by omega : c.toNat < 0x800), List.cons_append, List.nil_append]
              have hb : 0xC0 + c.toNat / 0x40 = b := by
                rw [ht]; unfold utf8Val2 at *; omega
              have hb2 : 0x80 + c.toNat % 0x40 = b2 := by
                rw [ht]; unfold utf8Val2 at *; omega
              rw [hb, hb2]
            · rw [if_neg hc] at h
              simp at h
        · rw [if_neg h3] at h
          by_cases h4 : b < 0xF0
          · rw [if_pos h4] at h
            match bs1, h with
            | [], h => simp at h
            | [b2], h => simp at h
            | b2 :: b3 :: r, h =>
              dsimp only at h
              by_cases hc : 0x80 ≤ b2 ∧ b2 < 0xC0 ∧ 0x80 ≤ b3 ∧ b3 < 0xC0 ∧
                  0x800 ≤ utf8Val3 b b2 b3 ∧
                  ¬(0xD800 ≤ utf8Val3 b b2 b3 ∧ utf8Val3 b b2 b3 < 0xE000)
              · rw [if_pos hc] at h
                simp only [Option.some.injEq, Prod.mk.injEq] at h
                obtain ⟨hch, hrest⟩ := h
                subst hrest
                obtain ⟨hc1, hc2, hc3, hc4, hc5, hc6⟩ := hc
                have hvlt : utf8Val3 b b2 b3 < 0x10000 := by unfold utf8Val3 at *; omega
                have ht : c.toNat = utf8Val3 b b2 b3 := by
                  rw [← hch, char_toNat_ofNat (by omega)]
                rw [utf8EncodeChar]
                simp only [if_neg (by omega : ¬(c.toNat < 0x80)),
                  if_neg (by omega : ¬(c.toNat < 0x800)),
                  if_pos (by omega : c.toNat < 0x10000), List.cons_append, List.nil_append]
                have hb : 0xE0 + c.toNat / 0x1000 = b := by
                  rw [ht]; unfold utf8Val3 at *; omega
                have hb2 : 0x80 + c.toNat / 0x40 % 0x40 = b2 := by
                  rw [ht]; unfold utf8Val3 at *; omega
                have hb3 : 0x80 + c.toNat % 0x40 = b3 := by
                  rw [ht]; unfold utf8Val3 at *; omega
                rw [hb, hb2, hb3]
              · rw [if_neg hc] at h
                simp at h
          · by_cases h5 : b < 0xF5
            · rw [if_neg h4, if_pos h5] at h
              match bs1, h with
              | [], h => simp at h
              | [b2], h => simp at h
              | [b2, b3], h => simp at h
              | b2 :: b3 :: b4 :: r, h =>
                dsimp only at h
                by_cases hc : 0x80 ≤ b2 ∧ b2 < 0xC0 ∧ 0x80 ≤ b3 ∧ b3 < 0xC0 ∧
                    0x80 ≤ b4 ∧ b4 < 0xC0 ∧ 0x10000 ≤ utf8Val4 b b2 b3 b4 ∧
                    utf8Val4 b b2 b3 b4 < 0x110000
                · rw [if_pos hc] at h
                  simp only [Option.some.injEq, Prod.mk.injEq] at h
                  obtain ⟨hch, hrest⟩ := h
                  subst hrest
                  obtain ⟨hc1, hc2, hc3, hc4, hc5, hc6, hc7, hc8⟩ := hc
                  have ht : c.toNat = utf8Val4 b b2 b3 b4 := by
                    rw [← hch, char_toNat_ofNat (by omega)]
                  rw [utf8EncodeChar]
                  simp only [if_neg (by omega : ¬(c.toNat < 0x80)),
                    if_neg (by omega : ¬(c.toNat < 0x800)),
                    if_neg (by omega : ¬(c.toNat < 0x10000)),
                    List.cons_append, List.nil_append]
                  have hb : 0xF0 + c.toNat / 0x40000 = b := by
                    rw [ht]; unfold utf8Val4 at *; omega
                  have hb2 : 0x80 + c.toNat / 0x1000 % 0x40 = b2 := by
                    rw [ht]; unfold utf8Val4 at *; omega
                  have hb3 : 0x80 + c.toNat / 0x40 % 0x40 = b3 := by
                    rw [ht]; unfold utf8Val4 at *; omega
                  have hb4 : 0x80 + c.toNat % 0x40 = b4 := by
                    rw [ht]; unfold utf8Val4 at *; omega
                  rw [hb, hb2, hb3, hb4]
                · rw [if_neg hc] at h
                  simp at h
            · rw [if_neg h4, if_neg h5] at h
              simp at h

theorem utf8DecodeOne_length {bs : Bytes} {c : Char} {rest : Bytes}
    (h : utf8DecodeOne bs = some (c, rest)) : rest.length < bs.length := by
  rw [utf8DecodeOne_eq_some h]
  have hpos := List.length_pos.mpr (utf8EncodeChar_ne_nil c)
  simp only [List.length_append]
  omega

theorem utf8DecGo_eq_of_le : ∀ f : Nat, ∀ bs : Bytes, bs.length ≤ f →
    utf8DecGo f bs = utf8DecodeStrict bs := by
  intro f
  induction f using Nat.strong_induction_on with
  | _ f ih =>
    intro bs hle
    cases bs with
    | nil => cases f <;> rfl
    | cons b bs1 =>
      cases f with
      | zero => simp at hle
      | succ f =>
        rw [utf8DecodeStrict]
        simp only [List.length_cons, utf8DecGo]
        cases hdec : utf8DecodeOne (b :: bs1) with
        | none => rfl
        | some pr =>
          obtain ⟨c, rest⟩ := pr
          have hlt := utf8DecodeOne_length hdec
          simp only [List.length_cons] at hlt hle
          dsimp only
          rw [ih f (by omega) rest (by omega)]
          rw [ih bs1.length (by omega) rest (by omega)]

theorem utf8EncodeStr_cons (c : Char) (s : Str) :
    utf8EncodeStr (c :: s) = utf8EncodeChar c ++ utf8EncodeStr s := by
  simp [utf8EncodeStr]

theorem utf8DecodeStrict_append (s : Str) (rest : Bytes) :
    utf8DecodeStrict (utf8EncodeStr s ++ rest) = (utf8DecodeStrict rest).map (s ++ .) := by
  induction s with
  | nil =>
    simp only [utf8EncodeStr, List.flatMap_nil, List.nil_append]
    cases utf8DecodeStrict rest <;> simp
  | cons c s ih =>
    rw [utf8EncodeStr_cons, List.append_assoc]
    obtain ⟨b, tl, hbtl⟩ : ∃ b tl, utf8EncodeChar c = b :: tl := by
      cases hh : utf8EncodeChar c with
      | nil => exact absurd hh (utf8EncodeChar_ne_nil c)
      | cons b tl => exact ⟨b, tl, rfl⟩
    rw [utf8DecodeStrict, hbtl, List.cons_append]
    simp only [List.length_cons, utf8DecGo]
    have hdec : utf8DecodeOne (b :: (tl ++ (utf8EncodeStr s ++ rest))) =
        some (c, utf8EncodeStr s ++ rest) := by
      rw [← List.cons_append, ← hbtl]
      exact utf8DecodeOne_encodeChar c _
    rw [hdec]
    dsimp only
    rw [utf8DecGo_eq_of_le _ _ (by simp [List.length_append])]
    rw [ih, Option.map_map]
    rfl

theorem utf8DecodeStrict_encodeStr (s : Str) :
    utf8DecodeStrict (utf8EncodeStr s) = some s := by
  have h := utf8DecodeStrict_append s []
  simp only [List.append_nil] at h
  rw [h]
  simp [utf8DecodeStrict, utf8DecGo]

theorem utf8DecodeStrict_eq_some :
    ∀ (s : Str) (bs : Bytes), utf8DecodeStrict bs = some s → bs = utf8EncodeStr s := by
  intro s
  induction s with
  | nil =>
    intro bs h
    cases bs with
    | nil => simp [utf8EncodeStr]
    | cons b bs1 =>
      exfalso
      rw [utf8DecodeStrict] at h
      simp only [List.length_cons, utf8DecGo] at h
      cases hdec : utf8DecodeOne (b :: bs1) with
      | none => rw [hdec] at h; simp at h
      | some pr =>
        obtain ⟨c0, rest⟩ := pr
        rw [hdec] at h
        dsimp only at h
        cases hg : utf8DecGo bs1.length rest with
        | none => rw [hg] at h; simp at h
        | some t => rw [hg] at h; simp at h
  | cons c s ih =>
    intro bs h
    cases bs with
    | nil =>
      rw [utf8DecodeStrict] at h
      simp [utf8DecGo] at h
    | cons b bs1 =>
      rw [utf8DecodeStrict] at h
      simp only [List.length_cons, utf8DecGo] at h
      cases hdec : utf8DecodeOne (b :: bs1) with
      | none => rw [hdec] at h; simp at h
      | some pr =>
        obtain ⟨c0, rest⟩ := pr
        rw [hdec] at h
        dsimp only at h
        cases hg : utf8DecGo bs1.length rest with
        | none => rw [hg] at h; simp at h
        | some t =>
          rw [hg] at h
          have h2 : c0 = c ∧ t = s := by simpa using h
          obtain ⟨hc0, ht⟩ := h2
          subst hc0
          subst ht
          have hlen := utf8DecodeOne_length hdec
          simp only [List.length_cons] at hlen
          have hrest : utf8DecodeStrict rest = some t := by
            rw [← utf8DecGo_eq_of_le bs1.length rest (by omega)]
            exact hg
          rw [utf8DecodeOne_eq_some hdec, ih rest hrest, utf8EncodeStr_cons]

theorem mem_utf8EncodeChar_lt {c : Char} {b : Nat} (hb : b < 0x80) :
    b ∈ utf8EncodeChar c ↔ c.toNat = b := by
  simp only [utf8EncodeChar]
  split_ifs with h1 h2 h3 <;>
    simp only [List.mem_cons, List.not_mem_nil, or_false] <;> omega

theorem count_utf8EncodeChar (c : Char) {b : Nat} (hb : b < 0x80) :
    (utf8EncodeChar c).count b = if c.toNat = b then 1 else 0 := by
  by_cases h : c.toNat = b
  · rw [if_pos h]
    have henc : utf8EncodeChar c = [b] := by
      simp only [utf8EncodeChar]
      rw [if_pos (by omega), h]
    rw [henc]
    simp
  · rw [if_neg h]
    exact List.count_eq_zero.mpr (fun hmem => h ((mem_utf8EncodeChar_lt hb).mp hmem))

theorem count_utf8EncodeStr (s : Str) {b : Nat} (hb : b < 0x80) :
    (utf8EncodeStr s).count b = s.countP (fun c => decide (c.toNat = b)) := by
  induction s with
  | nil => simp [utf8EncodeStr]
  | cons c s ih =>
    rw [utf8EncodeStr_cons, List.count_append, ih, List.countP_cons,
      count_utf8EncodeChar c hb]
    by_cases h : c.toNat = b
    · simp [h, Nat.add_comm]
    · simp [h]

theorem mem_utf8EncodeStr_iff {ch : Char} (hch : ch.toNat < 0x80) (s : Str) :
    ch.toNat ∈ utf8EncodeStr s ↔ ch ∈ s := by
  induction s with
  | nil => simp [utf8EncodeStr]
  | cons c s ih =>
    rw [utf8EncodeStr_cons]
    simp only [List.mem_append, List.mem_cons]
    rw [ih, mem_utf8EncodeChar_lt hch]
    constructor
    · rintro (h | h)
      · exact Or.inl (char_toNat_inj h).symm
      · exact Or.inr h
    · rintro (rfl | h)
      · exact Or.inl rfl
      · exact Or.inr h

/- ### Error taxonomy (§7): one variant per raise site / exception type -/

inductive PyErr : Type
  /-- The `RuntimeError` in `read_git_object`: object file absent. -/
  | objectNotFound
  /-- The `RuntimeError` in `read_git_object`: zlib failure. -/
  | decompressionError
  /-- The `RuntimeError` in `parse_git_object`: no NUL byte in the data. -/
  | malformedObjectHeader
  /-- The `RuntimeError`: object expected to be a commit is not. -/
  | notACommit
  /-- The `RuntimeError` in `read_tree`: object is not a tree. -/
  | notATree
  /-- The `RuntimeError` in `get_commit_changes`/`get_all_files_and_dirs`: no tree reference. -/
  | noTreeInCommit
  /-- The `RuntimeError` in `get_commit_changes`: no tree reference in the parent. -/
  | noTreeInParentCommit
  /-- The `RuntimeError` in `get_commit_history`: `.git` is not a directory. -/
  | notAGitRepo
  /-- The `RuntimeError` in `get_commit_history`: `HEAD` missing. -/
  | headMissing
  /-- The `RuntimeError` in `get_commit_history`: referenced ref file missing. -/
  | refNotFound
  /-- The `ValueError` from the unpacking `type_, size = header.split(' ')`. -/
  | valueErrorUnpack
  /-- The `ValueError` from `int(timestamp)` in `get_commit_info`. -/
  | valueErrorInt
  /-- The `UnicodeDecodeError` from a strict `.decode('utf-8')`. -/
  | unicodeDecodeError
  /-- The `IndexError` from `head_content.split(' ')[1]` on a spaceless `ref:` HEAD. -/
  | indexError
  deriving DecidableEq

/-- Which variants are `RuntimeError`s — exactly the exceptions the
`except RuntimeError` handler in `build_dependency_graph` catches. -/
def PyErr.isRuntimeError : PyErr → Bool
  | .valueErrorUnpack => false
  | .valueErrorInt => false
  | .unicodeDecodeError => false
  | .indexError => false
  | _ => true

/- ### Object store reader and header parser -/

/-- The loose-object store: hash (40 hex chars) to decompressed bytes. -/
abbrev Objects : Type := List (Str × Bytes)

/-- The `read_git_object`: locate `objects/sha[:2]/sha[2:]` and inflate it.
The store maps each hash directly to the decompressed bytes (filesystem
and zlib are external); a missing key is the missing-file `RuntimeError`. -/
def read_git_object (objects : Objects) (sha : Str) : Except PyErr Bytes :=
  match pyDictGet objects sha with
  | none => .error .objectNotFound
  | some data => .ok data

/-- The `parse_git_object`: find first NUL; `RuntimeError` if absent; decode
the header bytes strictly as UTF-8; unpack `type_, size = header.split(' ')`
(a `ValueError` unless the header has exactly one space). -/
def parse_git_object (data : Bytes) : Except PyErr (Str × Str × Bytes) :=
  match findByte 0 data with
  | none => .error .malformedObjectHeader
  | some i =>
    match utf8DecodeStrict (data.take i) with
    | none => .error .unicodeDecodeError
    | some header =>
      match splitOnChar ' ' header with
      | [t, s] => .ok (t, s, data.drop (i + 1))
      | _ => .error .valueErrorUnpack

/- ### Supporting lemmas for the header parser -/

theorem zero_mem_utf8EncodeStr (s : Str) :
    (0 : Nat) ∈ utf8EncodeStr s ↔ '\x00' ∈ s := by
  have h := @mem_utf8EncodeStr_iff '\x00' (by decide) s
  have h0 : ('\x00').toNat = 0 := rfl
  rwa [h0] at h

theorem space_mem_utf8EncodeStr (s : Str) :
    (32 : Nat) ∈ utf8EncodeStr s ↔ ' ' ∈ s := by
  have h := @mem_utf8EncodeStr_iff ' ' (by decide) s
  have h0 : (' ').toNat = 32 := rfl
  rwa [h0] at h

theorem utf8EncodeStr_append (a b : Str) :
    utf8EncodeStr (a ++ b) = utf8EncodeStr a ++ utf8EncodeStr b := by
  simp [utf8EncodeStr]

theorem findByte_zero_encoded (pre body : Bytes) (h : (0 : Nat) ∉ pre) :
    findByte 0 (pre ++ 0 :: body) = some pre.length := by
  rw [findByte_append_of_not_mem 0 pre (0 :: body) h, findByte_cons_self]
  simp

theorem take_append_length (pre body : Bytes) :
    (pre ++ body).take pre.length = pre := by
  simp

theorem drop_append_length_succ (pre : Bytes) (x : Nat) (body : Bytes) :
    (pre ++ x :: body).drop (pre.length + 1) = body := by
  rw [Nat.add_comm, ← List.drop_drop]
  simp

theorem countP_toNat_space (s : Str) :
    s.countP (fun c => decide (c.toNat = 32)) = s.count ' ' := by
  induction s with
  | nil => simp
  | cons c s ih =>
    rw [List.countP_cons, List.count_cons, ih]
    by_cases h : c = ' '
    · subst h
      simp
    · have hnn : ¬(c.toNat = 32) := fun hh => h (char_toNat_inj hh)
      simp [h, hnn]

/-- C5: for every well-formed encoding `"<type> <size>\x00<body>"` (type and
size containing neither NUL nor space, as well-formedness requires),
`parse_git_object` returns exactly `(type, size, body)`; and on any input
without a NUL byte it fails with the malformed-object-header error. -/
theorem parseHeader_roundtrip_and_nul :
    (∀ (ty sz : Str) (body : Bytes), '\x00' ∉ ty → ' ' ∉ ty → '\x00' ∉ sz → ' ' ∉ sz →
      parse_git_object (utf8EncodeStr ty ++ [32] ++ utf8EncodeStr sz ++ [0] ++ body) =
        .ok (ty, sz, body)) ∧
    (∀ data : Bytes, (0 : Nat) ∉ data →
      parse_git_object data = .error .malformedObjectHeader) := by
  constructor
  · intro ty sz body hty0 htysp hsz0 hszsp
    have hdata : utf8EncodeStr ty ++ [32] ++ utf8EncodeStr sz ++ [0] ++ body =
        utf8EncodeStr (ty ++ ' ' :: sz) ++ 0 :: body := by
      rw [utf8EncodeStr_append]
      have hsp : utf8EncodeStr (' ' :: sz) = 32 :: utf8EncodeStr sz := by
        rw [utf8EncodeStr_cons]
        rfl
      rw [hsp]
      simp
    rw [hdata]
    have hpre0 : (0 : Nat) ∉ utf8EncodeStr (ty ++ ' ' :: sz) := by
      rw [zero_mem_utf8EncodeStr]
      simp only [List.mem_append, List.mem_cons]
      rintro (h | h | h)
      · exact hty0 h
      · exact absurd h (by decide)
      · exact hsz0 h
    rw [parse_git_object, findByte_zero_encoded _ _ hpre0]
    dsimp only
    rw [take_append_length, drop_append_length_succ, utf8DecodeStrict_encodeStr]
    dsimp only
    rw [splitOnChar_append_sep ' ' ty sz htysp, splitOnChar_not_mem ' ' sz hszsp]
  · intro data h0
    rw [parse_git_object, findByte_eq_none 0 data h0]

/-- C5 witness: a concrete header round-trip. -/
theorem parseHeader_roundtrip_witness :
    parse_git_object
        (utf8EncodeStr ("commit".toList) ++ [32] ++ utf8EncodeStr ("5".toList) ++ [0] ++
          [104, 105]) =
      .ok ("commit".toList, "5".toList, [104, 105]) :=
  parseHeader_roundtrip_and_nul.1 ("commit".toList) ("5".toList) [104, 105]
    (by decide) (by decide) (by decide) (by decide)

/-- C10: `parse_git_object` is guarded only against a missing NUL: whenever
the input has a NUL byte but the bytes before it do not contain exactly one
space (byte 0x20), the result is an error that is neither the specified
malformed-object-header `RuntimeError` nor any `RuntimeError` at all (it is
the unhandled `ValueError` of the two-way unpacking, or, for an undecodable
header, the equally unhandled `UnicodeDecodeError`). -/
theorem parseHeader_unpack_unhandled (data : Bytes) (i : Nat)
    (hi : findByte 0 data = some i) (hc : (data.take i).count 32 ≠ 1) :
    ∃ e : PyErr, parse_git_object data = .error e ∧ e ≠ .malformedObjectHeader ∧
      e.isRuntimeError = false := by
  rw [parse_git_object, hi]
  dsimp only
  cases hdec : utf8DecodeStrict (data.take i) with
  | none => exact ⟨.unicodeDecodeError, rfl, by decide, rfl⟩
  | some header =>
    dsimp only
    have hbytes := utf8DecodeStrict_eq_some header (data.take i) hdec
    have hcount : (data.take i).count 32 = header.count ' ' := by
      rw [hbytes, count_utf8EncodeStr header (by omega), countP_toNat_space]
    have hlen : (splitOnChar ' ' header).length ≠ 2 := by
      rw [length_splitOnChar]
      omega
    cases hsp : splitOnChar ' ' header with
    | nil => exact absurd hsp (splitOnChar_ne_nil ' ' header)
    | cons t rest =>
      cases rest with
      | nil => exact ⟨.valueErrorUnpack, rfl, by decide, rfl⟩
      | cons s2 rest2 =>
        cases rest2 with
        | nil =>
          exfalso
          rw [hsp] at hlen
          simp at hlen
        | cons s3 rest3 => exact ⟨.valueErrorUnpack, rfl, by decide, rfl⟩

/-- C10 witness: the bytes of `"commit\x00x"` (no space before the NUL). -/
theorem parseHeader_unpack_witness :
    ∃ e : PyErr, parse_git_object [99, 111, 109, 109, 105, 116, 0, 120] = .error e ∧
      e ≠ .malformedObjectHeader ∧ e.isRuntimeError = false :=
  parseHeader_unpack_unhandled [99, 111, 109, 109, 105, 116, 0, 120] 6
    (by decide) (by decide)

/- ### Tree decoder -/

/-- One pass of the `read_tree` entry loop (`while i < len(content)`),
expressed on the suffix of `content` starting at the cursor `i`: find the
space ending the mode, decode the mode (strictly), find the NUL ending the
name, decode the name, consume up to 20 hash bytes and hex-encode them,
assign `entries[name] = hash`, continue.  A failing boundary search ends
the loop with the entries collected so far.  The fuel is a termination
device only: `content.length + 1` always suffices (`readTreeGo_isSome`). -/
def readTreeGo : Nat → Bytes → List (Str × Str) → Option (Except PyErr (List (Str × Str)))
  | 0, _, _ => none
  | _ + 1, [], entries => some (.ok entries)
  | f + 1, c :: cs, entries =>
    match findByte 32 (c :: cs) with
    | none => some (.ok entries)
    | some si =>
      match utf8DecodeStrict ((c :: cs).take si) with
      | none => some (.error .unicodeDecodeError)
      | some _mode =>
        match findByte 0 ((c :: cs).drop (si + 1)) with
        | none => some (.ok entries)
        | some ni =>
          match utf8DecodeStrict (((c :: cs).drop (si + 1)).take ni) with
          | none => some (.error .unicodeDecodeError)
          | some name =>
            readTreeGo f ((((c :: cs).drop (si + 1)).drop (ni + 1)).drop 20)
              (pyDictInsert entries name
                (hexOfBytes ((((c :: cs).drop (si + 1)).drop (ni + 1)).take 20)))

/-- The entry loop of `read_tree` on a full tree body, empty initial dict.
The `none` (fuel) branch is unreachable by `readTreeGo_isSome`; the
sentinel value there is arbitrary. -/
def readTreeContent (content : Bytes) : Except PyErr (List (Str × Str)) :=
  match readTreeGo (content.length + 1) content [] with
  | some r => r
  | none => .error .notATree

/-- The `read_tree`: read the object, parse the header, require type `tree`,
run the entry loop.  The result maps each name to the 40-hex-char hash of
its target; the parsed mode is decoded but not part of the result. -/
def read_tree (objects : Objects) (sha : Str) : Except PyErr (List (Str × Str)) :=
  match read_git_object objects sha with
  | .error e => .error e
  | .ok data =>
    match parse_git_object data with
    | .error e => .error e
    | .ok (ty, _sz, content) =>
      if ty = "tree".toList then readTreeContent content
      else .error .notATree

theorem readTreeGo_isSome :
    ∀ (f : Nat) (content : Bytes) (entries : List (Str × Str)), content.length < f →
      (readTreeGo f content entries).isSome := by
  intro f
  induction f with
  | zero =>
    intro content entries h
    simp at h
  | succ f ih =>
    intro content entries h
    cases content with
    | nil => simp [readTreeGo]
    | cons c cs =>
      simp only [readTreeGo]
      split
      · simp
      · split
        · simp
        · split
          · simp
          · split
            · simp
            · apply ih
              simp only [List.length_cons] at h
              simp only [List.length_drop, List.length_cons]
              omega

/- ### Synthetic tree bodies and the decode-tree theorems -/

/-- Encoding of one tree entry: `"<mode> <name>\x00"` then the raw hash. -/
def encodeTreeEntry (e : Str × Str × Bytes) : Bytes :=
  utf8EncodeStr e.1 ++ [32] ++ utf8EncodeStr e.2.1 ++ [0] ++ e.2.2

/-- Encoding of a whole synthetic tree body. -/
def encodeTreeBody (ts : List (Str × Str × Bytes)) : Bytes :=
  ts.flatMap encodeTreeEntry

theorem findByte_sep_encoded (b : Nat) (pre body : Bytes) (h : b ∉ pre) :
    findByte b (pre ++ b :: body) = some pre.length := by
  rw [findByte_append_of_not_mem b pre (b :: body) h, findByte_cons_self]
  simp

theorem drop_append_len (pre body : Bytes) : (pre ++ body).drop pre.length = body := by
  simp

theorem readTreeGo_cons_eq (f : Nat) (content : Bytes) (entries : List (Str × Str))
    (hne : content ≠ []) :
    readTreeGo (f + 1) content entries =
      match findByte 32 content with
      | none => some (.ok entries)
      | some si =>
        match utf8DecodeStrict (content.take si) with
        | none => some (.error .unicodeDecodeError)
        | some _mode =>
          match findByte 0 (content.drop (si + 1)) with
          | none => some (.ok entries)
          | some ni =>
            match utf8DecodeStrict ((content.drop (si + 1)).take ni) with
            | none => some (.error .unicodeDecodeError)
            | some name =>
              readTreeGo f (((content.drop (si + 1)).drop (ni + 1)).drop 20)
                (pyDictInsert entries name
                  (hexOfBytes (((content.drop (si + 1)).drop (ni + 1)).take 20))) := by
  cases content with
  | nil => exact absurd rfl hne
  | cons c cs => rfl

theorem readTreeGo_step (f : Nat) (m n : Str) (hb : Bytes) (rest : Bytes)
    (entries : List (Str × Str)) (hsp : ' ' ∉ m) (h0 : '\x00' ∉ n)
    (hlen : hb.length = 20) :
    readTreeGo (f + 1) (encodeTreeEntry (m, n, hb) ++ rest) entries =
      readTreeGo f rest (pyDictInsert entries n (hexOfBytes hb)) := by
  have hshape : encodeTreeEntry (m, n, hb) ++ rest =
      utf8EncodeStr m ++ 32 :: (utf8EncodeStr n ++ 0 :: (hb ++ rest)) := by
    simp [encodeTreeEntry]
  have hm32 : (32 : Nat) ∉ utf8EncodeStr m := by
    rw [space_mem_utf8EncodeStr]
    exact hsp
  have hn0 : (0 : Nat) ∉ utf8EncodeStr n := by
    rw [zero_mem_utf8EncodeStr]
    exact h0
  rw [hshape, readTreeGo_cons_eq _ _ _ (by simp)]
  rw [findByte_sep_encoded 32 _ _ hm32]
  dsimp only
  rw [take_append_length, utf8DecodeStrict_encodeStr]
  dsimp only
  rw [drop_append_length_succ]
  rw [findByte_sep_encoded 0 _ _ hn0]
  dsimp only
  rw [take_append_length, utf8DecodeStrict_encodeStr]
  dsimp only
  rw [drop_append_length_succ]
  rw [show (20 : Nat) = hb.length from hlen.symm, take_append_length, drop_append_len]

theorem length_encodeTreeEntry_pos (e : Str × Str × Bytes) :
    0 < (encodeTreeEntry e).length := by
  simp [encodeTreeEntry]

theorem readTreeGo_encodeBody :
    ∀ (ts : List (Str × Str × Bytes)) (f : Nat) (entries : List (Str × Str)),
      (encodeTreeBody ts).length < f →
      (∀ e ∈ ts, ' ' ∉ e.1) → (∀ e ∈ ts, '\x00' ∉ e.2.1) →
      (∀ e ∈ ts, e.2.2.length = 20) →
      readTreeGo f (encodeTreeBody ts) entries =
        some (.ok (ts.foldl (fun d e => pyDictInsert d e.2.1 (hexOfBytes e.2.2)) entries)) := by
  intro ts
  induction ts with
  | nil =>
    intro f entries hf _ _ _
    cases f with
    | zero => simp at hf
    | succ f => rfl
  | cons e ts ih =>
    intro f entries hf hsp h0 hln
    obtain ⟨m, n, hb⟩ := e
    have hbody : encodeTreeBody ((m, n, hb) :: ts) =
        encodeTreeEntry (m, n, hb) ++ encodeTreeBody ts := by
      simp [encodeTreeBody]
    rw [hbody] at hf ⊢
    cases f with
    | zero =>
      exfalso
      simp at hf
    | succ f =>
      rw [readTreeGo_step f m n hb (encodeTreeBody ts) entries
        (hsp (m, n, hb) (by simp)) (h0 (m, n, hb) (by simp)) (hln (m, n, hb) (by simp))]
      rw [ih f _ (by
          have := length_encodeTreeEntry_pos (m, n, hb)
          simp only [List.length_append] at hf
          omega)
        (fun x hx => hsp x (by simp [hx])) (fun x hx => h0 x (by simp [hx]))
        (fun x hx => hln x (by simp [hx]))]
      rfl

theorem foldl_pyDictInsert_fresh :
    ∀ (ts : List (Str × Str × Bytes)) (d : List (Str × Str)),
      (ts.map (fun e => e.2.1)).Nodup →
      (∀ e ∈ ts, e.2.1 ∉ d.map Prod.fst) →
      ts.foldl (fun d e => pyDictInsert d e.2.1 (hexOfBytes e.2.2)) d =
        d ++ ts.map (fun e => (e.2.1, hexOfBytes e.2.2)) := by
  intro ts
  induction ts with
  | nil => simp
  | cons e ts ih =>
    intro d hnd hfresh
    simp only [List.foldl_cons]
    have hkey : ¬(pyDictGet d e.2.1).isSome := by
      rw [pyDictGet_isSome_iff]
      exact hfresh e (by simp)
    have hins : pyDictInsert d e.2.1 (hexOfBytes e.2.2) = d ++ [(e.2.1, hexOfBytes e.2.2)] := by
      rw [pyDictInsert, if_neg]
      intro hcontra
      apply hkey
      rw [pyDictGet]
      cases hfind : List.find? (fun p => decide (p.1 = e.2.1)) d with
      | none => rw [hfind] at hcontra; simp at hcontra
      | some v => simp
    rw [hins]
    have hnd2 : (ts.map (fun e => e.2.1)).Nodup := by
      simp only [List.map_cons] at hnd
      exact hnd.of_cons
    have hfresh2 : ∀ x ∈ ts, x.2.1 ∉ (d ++ [(e.2.1, hexOfBytes e.2.2)]).map Prod.fst := by
      intro x hx
      simp only [List.map_append, List.mem_append, List.map_cons, List.map_nil,
        List.mem_cons, not_or]
      refine ⟨hfresh x (by simp [hx]), ?_, by simp⟩
      intro hcontra
      have hx1 : x.2.1 ∈ ts.map (fun e => e.2.1) := List.mem_map_of_mem _ hx
      rw [hcontra] at hx1
      simp only [List.map_cons] at hnd
      exact (List.nodup_cons.mp hnd).1 hx1
    rw [ih (d ++ [(e.2.1, hexOfBytes e.2.2)]) hnd2 hfresh2]
    simp

theorem length_hexOfBytes (bs : Bytes) : (hexOfBytes bs).length = 2 * bs.length := by
  induction bs with
  | nil => simp [hexOfBytes]
  | cons b bs ih =>
    have : hexOfBytes (b :: bs) = hexByte b ++ hexOfBytes bs := by
      simp [hexOfBytes]
    rw [this]
    simp only [List.length_append, List.length_cons, ih, hexByte]
    simp
    omega

/-- C6 counterexample: two synthetic tree bodies that differ only in the
mode string decode to identical results, so `read_tree`'s result cannot
contain the mode verbatim: the claim that decodeTree returns the (mode,
name, hash) triples, mode included, is false — the code returns only
name-to-hex-hash pairs. -/
theorem decodeTree_drops_mode_cex :
    readTreeContent (encodeTreeBody [("100644".toList, "f.txt".toList, List.replicate 20 171)]) =
      readTreeContent
        (encodeTreeBody [("100755".toList, "f.txt".toList, List.replicate 20 171)]) ∧
    encodeTreeBody [("100644".toList, "f.txt".toList, List.replicate 20 171)] ≠
      encodeTreeBody [("100755".toList, "f.txt".toList, List.replicate 20 171)] ∧
    readTreeContent (encodeTreeBody [("100644".toList, "f.txt".toList, List.replicate 20 171)]) =
      .ok [("f.txt".toList, "abababababababababababababababababababab".toList)] := by
  refine ⟨rfl, by decide, rfl⟩

/-- C6 (amended): for every synthetic tree body built from (mode, name,
20-byte hash) triples (well-formed: modes without spaces, names without
NUL, names distinct), the entry loop returns exactly the `(name, hex hash)`
pairs of those triples in encoding order, each hash hex-encoded to 40
characters; the mode is parsed but not part of the result. -/
theorem decodeTree_pairs_in_order (ts : List (Str × Str × Bytes))
    (hsp : ∀ e ∈ ts, ' ' ∉ e.1) (h0 : ∀ e ∈ ts, '\x00' ∉ e.2.1)
    (hln : ∀ e ∈ ts, e.2.2.length = 20) (_hbv : ∀ e ∈ ts, ∀ b ∈ e.2.2, b < 256)
    (hnd : (ts.map (fun e => e.2.1)).Nodup) :
    readTreeContent (encodeTreeBody ts) =
      .ok (ts.map (fun e => (e.2.1, hexOfBytes e.2.2))) ∧
    ∀ e ∈ ts, (hexOfBytes e.2.2).length = 40 := by
  constructor
  · rw [readTreeContent, readTreeGo_encodeBody ts _ [] (by omega) hsp h0 hln]
    rw [foldl_pyDictInsert_fresh ts [] hnd (by simp)]
    simp
  · intro e he
    rw [length_hexOfBytes, hln e he]

/-- C6 witness: a concrete two-entry tree body decoded to its pairs. -/
theorem decodeTree_pairs_witness :
    readTreeContent
        (encodeTreeBody [("100644".toList, "a.txt".toList, List.replicate 20 10),
          ("40000".toList, "dir".toList, List.replicate 20 13)]) =
      .ok [("a.txt".toList, hexOfBytes (List.replicate 20 10)),
        ("dir".toList, hexOfBytes (List.replicate 20 13))] ∧
    (hexOfBytes (List.replicate 20 10)).length = 40 :=
  have h := decodeTree_pairs_in_order
    [("100644".toList, "a.txt".toList, List.replicate 20 10),
      ("40000".toList, "dir".toList, List.replicate 20 13)]
    (by decide) (by decide) (by decide) (by decide) (by decide)
  ⟨h.1, h.2 ("100644".toList, "a.txt".toList, List.replicate 20 10) (by decide)⟩

/- ### Commit decoder -/

/-- The `CommitRecord`: the dictionary built by `get_commit_info`. -/
structure CommitInfo : Type where
  hash : Str
  parents : List Str
  author : Option Str
  date : Option Str
  deriving DecidableEq

/-- The digits-value of an all-digit token. -/
def natOfDigits (ds : Str) : Nat := ds.foldl (fun n c => n * 10 + (c.toNat - 48)) 0

/-- Python `int(s)` for the token shapes reachable here: optional sign then
a nonempty run of ASCII digits (the whitespace/underscore tolerance of
`int` cannot trigger: the token comes from `rsplit(' ')` and the claims
never exercise it).  `none` models the uncaught `ValueError`. -/
def pyInt : Str → Option Int
  | '-' :: ds =>
    if ds ≠ [] ∧ ds.all Char.isDigit then some (-(natOfDigits ds : Int)) else none
  | '+' :: ds =>
    if ds ≠ [] ∧ ds.all Char.isDigit then some (natOfDigits ds : Int) else none
  | ds =>
    if ds ≠ [] ∧ ds.all Char.isDigit then some (natOfDigits ds : Int) else none

/-- Model of `datetime.fromtimestamp(ts).strftime('%Y-%m-%d %H:%M:%S')`:
the calendar rendering is an external collaborator; the model keeps only
what the claims can observe — a total function of the timestamp. -/
def tsRender (t : Int) : Str := (toString t).toList

/-- One line of the `get_commit_info` scan (source lines 47-59).  Note the
loop has no blank-line break: every line of the body, the commit message
included, flows through here (the C7 result).  `line.split(' ')[1]` cannot
raise: the matched `"parent "` prefix guarantees at least two pieces. -/
def scanInfoLine (ci : CommitInfo) (line : Str) : Except PyErr CommitInfo :=
  if ("parent ".toList).isPrefixOf line then
    .ok { ci with parents := ci.parents ++ [(splitOnChar ' ' line).getD 1 []] }
  else if ("author ".toList).isPrefixOf line then
    let parts := splitAtMost ' ' 2 line
    if 3 ≤ parts.length then
      let aparts := rsplitAtMost ' ' 2 (parts.getD 2 [])
      if 3 ≤ aparts.length then
        match pyInt (aparts.getD 1 []) with
        | none => .error .valueErrorInt
        | some ts =>
          .ok { ci with author := some (aparts.getD 0 []), date := some (tsRender ts) }
      else .ok ci
    else .ok ci
  else .ok ci

/-- The full line loop of `get_commit_info`. -/
def scanInfoLines (ci : CommitInfo) : List Str → Except PyErr CommitInfo
  | [] => .ok ci
  | l :: rest =>
    match scanInfoLine ci l with
    | .error e => .error e
    | .ok ci2 => scanInfoLines ci2 rest

/-- The `get_commit_info`: read and parse the object, require type `commit`,
scan all lines of the body (decoded with `errors='replace'`). -/
def get_commit_info (objects : Objects) (sha : Str) : Except PyErr CommitInfo :=
  match read_git_object objects sha with
  | .error e => .error e
  | .ok data =>
    match parse_git_object data with
    | .error e => .error e
    | .ok (ty, _sz, content) =>
      if ty = "commit".toList then
        scanInfoLines { hash := sha, parents := [], author := none, date := none }
          (splitLinesPy (decodeReplace content))
      else .error .notACommit

/- ### Tree differ (`diff_trees`, `get_commit_changes`) -/

/-- The tree/parent header scan of `get_commit_changes` (source lines
141-148): the last `tree` line before the first blank line wins, `parent`
refs are appended in order, a blank line stops the scan. -/
def scanTreeParents (th : Option Str) (ps : List Str) : List Str → Option Str × List Str
  | [] => (th, ps)
  | l :: rest =>
    if ("tree ".toList).isPrefixOf l then
      scanTreeParents (some ((splitOnChar ' ' l).getD 1 [])) ps rest
    else if ("parent ".toList).isPrefixOf l then
      scanTreeParents th (ps ++ [(splitOnChar ' ' l).getD 1 []]) rest
    else if l = [] then (th, ps)
    else scanTreeParents th ps rest

/-- The tree-only header scan (source lines 159-163 and 181-185). -/
def scanTreeOnly (th : Option Str) : List Str → Option Str
  | [] => th
  | l :: rest =>
    if ("tree ".toList).isPrefixOf l then
      scanTreeOnly (some ((splitOnChar ' ' l).getD 1 [])) rest
    else if l = [] then th
    else scanTreeOnly th rest

/-- The `diff_trees`: the union of both top-level key sets (a Python `set`,
modelled as first-occurrence dedup — its iteration order is an artifact
the claims never depend on), keeping the keys whose lookups differ. -/
def diff_trees (parentTree currentTree : List (Str × Str)) : List Str :=
  (pySetList (parentTree.map Prod.fst ++ currentTree.map Prod.fst)).filter
    (fun k => decide (pyDictGet parentTree k ≠ pyDictGet currentTree k))

/-- The `get_commit_changes`: decode the commit, scan tree/parents up to the
first blank line, fail (`RuntimeError`) unless a nonempty tree hash was
found (`if not tree_hash`), resolve the first parent's tree if there is a
parent (else the empty dict), read the current tree, and diff. -/
def get_commit_changes (objects : Objects) (commitHash : Str) : Except PyErr (List Str) :=
  match read_git_object objects commitHash with
  | .error e => .error e
  | .ok data =>
    match parse_git_object data with
    | .error e => .error e
    | .ok (ty, _sz, content) =>
      if ty = "commit".toList then
        let scanned := scanTreeParents none [] (splitLinesPy (decodeReplace content))
        if (scanned.1).getD [] = [] then .error .noTreeInCommit
        else
          match scanned.2 with
          | [] =>
            match read_tree objects ((scanned.1).getD []) with
            | .error e => .error e
            | .ok currentTree => .ok (diff_trees [] currentTree)
          | p :: _ =>
            match read_git_object objects p with
            | .error e => .error e
            | .ok pdata =>
              match parse_git_object pdata with
              | .error e => .error e
              | .ok (typ, _psz, pcontent) =>
                if typ = "commit".toList then
                  let thp := scanTreeOnly none (splitLinesPy (decodeReplace pcontent))
                  if thp.getD [] = [] then .error .noTreeInParentCommit
                  else
                    match read_tree objects (thp.getD []) with
                    | .error e => .error e
                    | .ok parentTree =>
                      match read_tree objects ((scanned.1).getD []) with
                      | .error e => .error e
                      | .ok currentTree => .ok (diff_trees parentTree currentTree)
                else .error .notACommit
      else .error .notACommit

/- ### Synthetic loose objects for the concrete runs -/

/-- A synthetic loose object: `"<type> <len>\x00" ++ body` (the declared
size is informational; the source never checks it). -/
def mkObjBytes (ty : String) (body : Bytes) : Bytes :=
  utf8EncodeStr ty.toList ++ [32] ++ utf8EncodeStr (toString body.length).toList ++
    [0] ++ body

/-- A synthetic commit object from its text body. -/
def mkCommitObj (body : String) : Bytes := mkObjBytes ("commit") (utf8EncodeStr body.toList)

/-- The 40-hex-char hash whose 20 raw bytes are all `b`. -/
def hashStr (b : Nat) : Str := hexOfBytes (List.replicate 20 b)

/- ### Scan lemmas -/

/-- The header block: the lines strictly before the first blank line. -/
def headerBlock (ls : List Str) : List Str := ls.takeWhile (fun l => !l.isEmpty)

theorem prefix_ne_nil {p l : Str} (hp : p ≠ []) (h : p.isPrefixOf l) : l ≠ [] := by
  intro hnil
  subst hnil
  cases p with
  | nil => exact hp rfl
  | cons c cs => simp [List.isPrefixOf] at h

theorem headerBlock_cons_ne (l : Str) (rest : List Str) (h : l ≠ []) :
    headerBlock (l :: rest) = l :: headerBlock rest := by
  simp [headerBlock, List.takeWhile_cons, h]

theorem scanTreeParents_no_tree :
    ∀ (ls : List Str) (ps : List Str),
      (∀ l ∈ headerBlock ls, ¬("tree ".toList).isPrefixOf l) →
      (scanTreeParents none ps ls).1 = none := by
  intro ls
  induction ls with
  | nil => intro ps _; rfl
  | cons l rest ih =>
    intro ps h
    simp only [scanTreeParents]
    by_cases h1 : ("tree ".toList).isPrefixOf l
    · exfalso
      have hl : l ≠ [] := prefix_ne_nil (by decide) h1
      exact h l (by rw [headerBlock_cons_ne l rest hl]; simp) h1
    · rw [if_neg h1]
      by_cases h2 : ("parent ".toList).isPrefixOf l
      · rw [if_pos h2]
        have hl : l ≠ [] := prefix_ne_nil (by decide) h2
        exact ih _ (fun x hx => h x (by rw [headerBlock_cons_ne l rest hl]; simp [hx]))
      · rw [if_neg h2]
        by_cases h3 : l = []
        · rw [if_pos h3]
        · rw [if_neg h3]
          exact ih _ (fun x hx => h x (by rw [headerBlock_cons_ne l rest h3]; simp [hx]))

/-- C8: decoding a commit whose header block (the lines strictly before
the first blank line) contains no `tree <ref>` line fails with the
missing-tree `RuntimeError`, whatever the rest of the body holds. -/
theorem missing_tree_fatal (objects : Objects) (sha : Str) (data : Bytes)
    (sz : Str) (content : Bytes)
    (hread : read_git_object objects sha = .ok data)
    (hparse : parse_git_object data = .ok ("commit".toList, sz, content))
    (hnt : ∀ l ∈ headerBlock (splitLinesPy (decodeReplace content)),
      ¬("tree ".toList).isPrefixOf l) :
    get_commit_changes objects sha = .error .noTreeInCommit := by
  have hscan := scanTreeParents_no_tree (splitLinesPy (decodeReplace content)) [] hnt
  rw [get_commit_changes, hread]
  dsimp only
  rw [hparse]
  dsimp only
  rw [if_pos rfl]
  rw [hscan]
  rfl

/-- The store for the C8 witness: one commit with no tree line. -/
def objsC8 : Objects := [(hashStr 0xB8, mkCommitObj ("author nobody\n\ntree-less body"))]

/-- C8 witness: the concrete tree-less commit fails as specified. -/
theorem missing_tree_witness :
    get_commit_changes objsC8 (hashStr 0xB8) = .error .noTreeInCommit :=
  missing_tree_fatal objsC8 (hashStr 0xB8) _ _ _ rfl rfl (by decide)

/- ### C7: the commit-message scan of `get_commit_info` -/

/-- The store for the C7 run: the only `parent` line sits in the commit
message, after the blank line. -/
def objsC7 : Objects :=
  [(hashStr 0xC7,
    mkCommitObj ("tree 0101010101010101010101010101010101010101\n\nparent deadbeef"))]

/-- C7 (evaluation at the failing input): `get_commit_info` has no
blank-line break, so the message line `parent deadbeef` lands in the
record's parents — the claim that lines after the first blank line never
affect parents/author/date is false of the code.  By contrast the
tree/parent scan used by `get_commit_changes` does stop at the blank line
and reports no parents for the same body. -/
theorem commitDecode_message_parent_counted :
    get_commit_info objsC7 (hashStr 0xC7) =
      .ok { hash := hashStr 0xC7, parents := ["deadbeef".toList], author := none, date := none } ∧
    scanTreeParents none []
        (splitLinesPy
          ("tree 0101010101010101010101010101010101010101\n\nparent deadbeef".toList)) =
      (some ("0101010101010101010101010101010101010101".toList), []) := by
  constructor <;> rfl

/- ### C9: author-line error handling -/

/-- The store for the C9 counterexample: a syntactically complete author
line whose timestamp token is not numeric. -/
def objsC9 : Objects :=
  [(hashStr 0xC9,
    mkCommitObj
      ("tree 0101010101010101010101010101010101010101\nauthor Alice <a@b> notanumber +0000\n\nmsg"))]

/-- C9 counterexample: a malformed author line does make commit decoding
fail — `int('notanumber')` raises an uncaught `ValueError`, so no
CommitRecord is produced, contradicting the claim. -/
theorem author_nonnumeric_ts_fatal_cex :
    get_commit_info objsC9 (hashStr 0xC9) = .error .valueErrorInt := by rfl

theorem scanInfoLines_short :
    ∀ (ls : List Str) (ci : CommitInfo), ci.author = none → ci.date = none →
      (∀ l ∈ ls, ("author ".toList).isPrefixOf l →
        ((splitAtMost ' ' 2 l).length < 3 ∨
          (rsplitAtMost ' ' 2 ((splitAtMost ' ' 2 l).getD 2 [])).length < 3)) →
      ∃ r : CommitInfo, scanInfoLines ci ls = .ok r ∧ r.author = none ∧ r.date = none := by
  intro ls
  induction ls with
  | nil =>
    intro ci ha hd _
    exact ⟨ci, rfl, ha, hd⟩
  | cons l rest ih =>
    intro ci ha hd hsh
    have htail : ∀ x ∈ rest, ("author ".toList).isPrefixOf x →
        ((splitAtMost ' ' 2 x).length < 3 ∨
          (rsplitAtMost ' ' 2 ((splitAtMost ' ' 2 x).getD 2 [])).length < 3) :=
      fun x hx hax => hsh x (by simp [hx]) hax
    simp only [scanInfoLines]
    by_cases h1 : ("parent ".toList).isPrefixOf l
    · rw [scanInfoLine, if_pos h1]
      dsimp only
      exact ih _ ha hd htail
    · rw [scanInfoLine, if_neg h1]
      by_cases h2 : ("author ".toList).isPrefixOf l
      · rw [if_pos h2]
        dsimp only
        rcases hsh l (by simp) h2 with hs | hs
        · rw [if_neg (by omega)]
          dsimp only
          exact ih ci ha hd htail
        · by_cases h3 : 3 ≤ (splitAtMost ' ' 2 l).length
          · rw [if_pos h3, if_neg (by omega)]
            dsimp only
            exact ih ci ha hd htail
          · rw [if_neg h3]
            dsimp only
            exact ih ci ha hd htail
      · rw [if_neg h2]
        dsimp only
        exact ih ci ha hd htail

/-- C9 (amended): an author line with too few tokens never causes commit
decoding to fail — the record is produced with author and date left unset;
(per the counterexample, a full-length author line with a non-numeric
timestamp token instead raises an uncaught `ValueError`). -/
theorem author_short_line_nonfatal (objects : Objects) (sha : Str) (data : Bytes)
    (sz : Str) (content : Bytes)
    (hread : read_git_object objects sha = .ok data)
    (hparse : parse_git_object data = .ok ("commit".toList, sz, content))
    (hshort : ∀ l ∈ splitLinesPy (decodeReplace content),
      ("author ".toList).isPrefixOf l →
      ((splitAtMost ' ' 2 l).length < 3 ∨
        (rsplitAtMost ' ' 2 ((splitAtMost ' ' 2 l).getD 2 [])).length < 3)) :
    ∃ r : CommitInfo, get_commit_info objects sha = .ok r ∧
      r.author = none ∧ r.date = none := by
  rw [get_commit_info, hread]
  dsimp only
  rw [hparse]
  dsimp only
  rw [if_pos rfl]
  exact scanInfoLines_short (splitLinesPy (decodeReplace content))
    { hash := sha, parents := [], author := none, date := none } rfl rfl hshort

/-- The store for the C9 witness: a two-token author line. -/
def objsC9w : Objects :=
  [(hashStr 0xA9,
    mkCommitObj ("tree 0101010101010101010101010101010101010101\nauthor ab\n\nmsg"))]

/-- C9 witness: the short author line decodes fine, author/date unset. -/
theorem author_short_line_witness :
    ∃ r : CommitInfo, get_commit_info objsC9w (hashStr 0xA9) = .ok r ∧
      r.author = none ∧ r.date = none :=
  author_short_line_nonfatal objsC9w (hashStr 0xA9) _ _ _ rfl rfl (by decide)

/- ### Diff lemmas and C4 -/

theorem pyDictGet_nil (k : Str) : pyDictGet ([] : List (Str × Str)) k = none := rfl

theorem diff_trees_self (t : List (Str × Str)) : diff_trees t t = [] := by
  rw [diff_trees]
  apply List.filter_eq_nil_iff.mpr
  intro k _
  simp

theorem mem_diff_trees (pt ct : List (Str × Str)) (k : Str) :
    k ∈ diff_trees pt ct ↔ pyDictGet pt k ≠ pyDictGet ct k := by
  rw [diff_trees, List.mem_filter]
  constructor
  · rintro ⟨_, h⟩
    simpa using h
  · intro h
    refine ⟨?_, by simpa using h⟩
    rw [mem_pySetList, List.mem_append]
    by_cases hp : (pyDictGet pt k).isSome
    · exact Or.inl ((pyDictGet_isSome_iff pt k).mp hp)
    · have hpn : pyDictGet pt k = none := Option.not_isSome_iff_eq_none.mp hp
      right
      apply (pyDictGet_isSome_iff ct k).mp
      cases hcv : pyDictGet ct k with
      | none => exact absurd (hpn.trans hcv.symm) h
      | some v => simp

theorem mem_diff_trees_nil_left (t : List (Str × Str)) (k : Str) :
    k ∈ diff_trees [] t ↔ k ∈ t.map Prod.fst := by
  rw [mem_diff_trees, pyDictGet_nil]
  constructor
  · intro h
    apply (pyDictGet_isSome_iff t k).mp
    cases hcv : pyDictGet t k with
    | none => exact absurd hcv.symm h
    | some v => simp
  · intro h hcontra
    have hs := (pyDictGet_isSome_iff t k).mpr h
    rw [← hcontra] at hs
    simp at hs

/-- C4: the changed-set semantics of the tree differ.  First conjunct: a
commit whose tree dict equals its first parent's tree dict diffs to the
empty changed-set.  Second: a root commit (no parent lines) diffs to
exactly the top-level names of its own tree.  Third: in general a name is
in `diff_trees` exactly when its two lookups disagree — i.e. it is present
on only one side or its referenced hash differs. -/
theorem diffCommit_changed_sets :
    (∀ (objects : Objects) (sha : Str) (data : Bytes) (sz : Str) (content : Bytes)
        (th p : Str) (ps : List Str) (pdata : Bytes) (psz : Str) (pcontent : Bytes)
        (thp : Str) (t : List (Str × Str)),
      read_git_object objects sha = .ok data →
      parse_git_object data = .ok ("commit".toList, sz, content) →
      scanTreeParents none [] (splitLinesPy (decodeReplace content)) = (some th, p :: ps) →
      th ≠ [] →
      read_git_object objects p = .ok pdata →
      parse_git_object pdata = .ok ("commit".toList, psz, pcontent) →
      scanTreeOnly none (splitLinesPy (decodeReplace pcontent)) = some thp →
      thp ≠ [] →
      read_tree objects thp = .ok t →
      read_tree objects th = .ok t →
      get_commit_changes objects sha = .ok []) ∧
    (∀ (objects : Objects) (sha : Str) (data : Bytes) (sz : Str) (content : Bytes)
        (th : Str) (t : List (Str × Str)),
      read_git_object objects sha = .ok data →
      parse_git_object data = .ok ("commit".toList, sz, content) →
      scanTreeParents none [] (splitLinesPy (decodeReplace content)) = (some th, []) →
      th ≠ [] →
      read_tree objects th = .ok t →
      get_commit_changes objects sha = .ok (diff_trees [] t) ∧
        ∀ k, k ∈ diff_trees [] t ↔ k ∈ t.map Prod.fst) ∧
    (∀ (pt ct : List (Str × Str)) (k : Str),
      k ∈ diff_trees pt ct ↔ pyDictGet pt k ≠ pyDictGet ct k) := by
  refine ⟨?_, ?_, mem_diff_trees⟩
  · intro objects sha data sz content th p ps pdata psz pcontent thp t
      hread hparse hscan hth hpread hpparse hpscan hthp hpt hct
    rw [get_commit_changes, hread]
    try dsimp only
    rw [hparse]
    try dsimp only
    rw [if_pos rfl, hscan]
    try dsimp only
    simp only [Option.getD_some]
    rw [if_neg hth]
    rw [hpread]
    try dsimp only
    rw [hpparse]
    try dsimp only
    rw [if_pos rfl, hpscan]
    try dsimp only
    simp only [Option.getD_some]
    rw [if_neg hthp]
    rw [hpt]
    try dsimp only
    rw [hct]
    try dsimp only
    rw [diff_trees_self]
  · intro objects sha data sz content th t hread hparse hscan hth hct
    refine ⟨?_, fun k => mem_diff_trees_nil_left t k⟩
    rw [get_commit_changes, hread]
    try dsimp only
    rw [hparse]
    try dsimp only
    rw [if_pos rfl, hscan]
    try dsimp only
    simp only [Option.getD_some]
    rw [if_neg hth]
    rw [hct]

/-- The store for the C4 witness: `d1` is a root commit on tree `t5`,
`d2` is its child with the same tree. -/
def objsC4 : Objects :=
  [(hashStr 0xD2,
    mkCommitObj
      ("tree 0505050505050505050505050505050505050505\nparent d1d1d1d1d1d1d1d1d1d1d1d1d1d1d1d1d1d1d1d1\n\nsecond")),
   (hashStr 0xD1,
    mkCommitObj ("tree 0505050505050505050505050505050505050505\n\nfirst")),
   (hashStr 5,
    mkObjBytes ("tree") (encodeTreeBody [("100644".toList, "x.txt".toList, List.replicate 20 9)]))]

/-- C4 witness: identical-tree child diffs to empty; root commit diffs to
its top-level names; general membership at a concrete pair. -/
theorem diffCommit_changed_sets_witness :
    get_commit_changes objsC4 (hashStr 0xD2) = .ok [] ∧
    get_commit_changes objsC4 (hashStr 0xD1) =
        .ok (diff_trees [] [("x.txt".toList, hashStr 9)]) ∧
    ("x.txt".toList ∈ diff_trees [("x.txt".toList, hashStr 9)] [("x.txt".toList, hashStr 9)] ↔
      pyDictGet [("x.txt".toList, hashStr 9)] ("x.txt".toList) ≠
        pyDictGet [("x.txt".toList, hashStr 9)] ("x.txt".toList)) :=
  ⟨diffCommit_changed_sets.1 objsC4 (hashStr 0xD2) _ _ _ _ _ _ _ _ _ _ _
      rfl rfl rfl (by decide) rfl rfl rfl (by decide) rfl rfl,
   (diffCommit_changed_sets.2.1 objsC4 (hashStr 0xD1) _ _ _ _ _ rfl rfl rfl (by decide) rfl).1,
   diffCommit_changed_sets.2.2 [("x.txt".toList, hashStr 9)] [("x.txt".toList, hashStr 9)]
     ("x.txt".toList)⟩

/- ### History walker -/

/-- The filesystem inputs of `get_commit_history`: whether `.git` is a
directory, the contents of `HEAD`, the ref files under the git directory
(keyed by the path written after `ref:`), and the object store. -/
structure GitDir : Type where
  gitDirExists : Bool
  headFile : Option Str
  refFiles : List (Str × Str)
  objects : Objects

/-- The head resolution of `get_commit_history` (source lines 63-79):
strip `HEAD`; on a `ref:` prefix take `split(' ')[1]` (an uncaught
`IndexError` if there is no space), read and strip that ref file;
otherwise `HEAD`'s stripped content is the commit hash. -/
def resolveHead (gd : GitDir) : Except PyErr Str :=
  if gd.gitDirExists = false then .error .notAGitRepo
  else
    match gd.headFile with
    | none => .error .headMissing
    | some hc0 =>
      let hc := stripPy hc0
      if ("ref:".toList).isPrefixOf hc then
        match splitOnChar ' ' hc with
        | _ :: refPath :: _ =>
          match pyDictGet gd.refFiles refPath with
          | none => .error .refNotFound
          | some rc => .ok (stripPy rc)
        | _ => .error .indexError
      else .ok hc

/-- The stack loop of `get_commit_history` (source lines 80-94).  The top
of the stack is the list head (Python pops from the end of its list, and
parents are appended in order, so the *last* parent is popped first —
folding the parents onto the head end preserves that order).  A commit is
marked visited and appended to the result, then its record is decoded and
its nonempty unvisited parents pushed.  Fuel only cuts runs short;
`pyWalkFuel` dominates the iteration count. -/
def walkLoop (objects : Objects) :
    Nat → List Str → List Str → List Str → Option (Except PyErr (List Str))
  | 0, _, _, _ => none
  | _ + 1, [], _visited, commits => some (.ok commits)
  | f + 1, sha :: rest, visited, commits =>
    if sha ∈ visited then walkLoop objects f rest visited commits
    else
      match get_commit_info objects sha with
      | .error e => some (.error e)
      | .ok info =>
        walkLoop objects f
          (info.parents.foldl
            (fun st pr => if pr ≠ [] ∧ pr ∉ sha :: visited then pr :: st else st) rest)
          (sha :: visited) (commits ++ [sha])

/-- A fuel bound dominating the iteration count: every push stems from a
`parent` line of a stored object's body, and each iteration pops once. -/
def pyWalkFuel (objects : Objects) : Nat :=
  2 + objects.foldl (fun n pr => n + pr.2.length + 1) 0

/-- The `get_commit_history`: resolve the head, then walk from it. -/
def get_commit_history (gd : GitDir) : Option (Except PyErr (List Str)) :=
  match resolveHead gd with
  | .error e => some (.error e)
  | .ok start => walkLoop gd.objects (pyWalkFuel gd.objects) [start] [] []

/- ### Reachability -/

/-- Holds when `b` is a nonempty parent reference of commit `a`, as decoded by
`get_commit_info` (the walker never pushes an empty parent string). -/
def parentEdge (objects : Objects) (a b : Str) : Prop :=
  b ≠ [] ∧ ∃ info : CommitInfo, get_commit_info objects a = .ok info ∧ b ∈ info.parents

/-- Reachability along parent references. -/
def Reaches (objects : Objects) : Str → Str → Prop :=
  Relation.ReflTransGen (parentEdge objects)

theorem mem_walk_push (visited2 : List Str) :
    ∀ (ps : List Str) (init : List Str) (x : Str),
      x ∈ ps.foldl (fun st pr => if pr ≠ [] ∧ pr ∉ visited2 then pr :: st else st) init ↔
        x ∈ init ∨ (x ∈ ps ∧ x ≠ [] ∧ x ∉ visited2) := by
  intro ps
  induction ps with
  | nil => simp
  | cons a as ih =>
    intro init x
    simp only [List.foldl_cons]
    rw [ih]
    by_cases hP : a ≠ [] ∧ a ∉ visited2
    · rw [if_pos hP]
      simp only [List.mem_cons]
      constructor
      · rintro ((rfl | hx) | hx)
        · exact Or.inr ⟨Or.inl rfl, hP⟩
        · exact Or.inl hx
        · exact Or.inr ⟨Or.inr hx.1, hx.2⟩
      · rintro (hx | ⟨(rfl | hmem), hPx⟩)
        · exact Or.inl (Or.inr hx)
        · exact Or.inl (Or.inl rfl)
        · exact Or.inr ⟨hmem, hPx⟩
    · rw [if_neg hP]
      constructor
      · rintro (hx | hx)
        · exact Or.inl hx
        · exact Or.inr ⟨List.mem_cons_of_mem a hx.1, hx.2⟩
      · rintro (hx | ⟨hmem, hPx⟩)
        · exact Or.inl hx
        · rcases List.mem_cons.mp hmem with rfl | hmem
          · exact absurd hPx hP
          · exact Or.inr ⟨hmem, hPx⟩

theorem reaches_mem_closed (objects : Objects) (V : List Str) (start : Str)
    (hs : start ∈ V)
    (hcl : ∀ v ∈ V, ∀ pr, parentEdge objects v pr → pr ∈ V) :
    ∀ x, Reaches objects start x → x ∈ V := by
  intro x hx
  induction hx with
  | refl => exact hs
  | tail _hab hbc ih => exact hcl _ ih _ hbc

theorem walkLoop_ok (objects : Objects) (start : Str) :
    ∀ (fuel : Nat) (stack visited commits l : List Str),
      walkLoop objects fuel stack visited commits = some (.ok l) →
      (∀ x, x ∈ commits ↔ x ∈ visited) →
      commits.Nodup →
      (∀ s ∈ stack, Reaches objects start s) →
      (∀ v ∈ visited, Reaches objects start v) →
      (∀ v ∈ visited, ∀ pr, parentEdge objects v pr → pr ∈ visited ∨ pr ∈ stack) →
      (start ∈ visited ∨ start ∈ stack) →
      l.Nodup ∧ ∀ x, x ∈ l ↔ Reaches objects start x := by
  intro fuel
  induction fuel with
  | zero =>
    intro stack visited commits l h
    simp [walkLoop] at h
  | succ f ih =>
    intro stack visited commits l h hvc hnd hrs hrv hcl hst
    cases stack with
    | nil =>
      have hl : commits = l := by
        simpa [walkLoop] using h
      subst hl
      refine ⟨hnd, ?_⟩
      have hstv : start ∈ visited := by
        rcases hst with hh | hh
        · exact hh
        · simp at hh
      intro x
      constructor
      · intro hx
        exact hrv x ((hvc x).mp hx)
      · intro hx
        apply (hvc x).mpr
        refine reaches_mem_closed objects visited start hstv ?_ x hx
        intro v hvv pr hpr
        rcases hcl v hvv pr hpr with hh | hh
        · exact hh
        · simp at hh
    | cons sha rest =>
      simp only [walkLoop] at h
      by_cases hv : sha ∈ visited
      · rw [if_pos hv] at h
        refine ih rest visited commits l h hvc hnd
          (fun s hs => hrs s (by simp [hs])) hrv ?_ ?_
        · intro v hvv pr hpr
          rcases hcl v hvv pr hpr with hh | hh
          · exact Or.inl hh
          · rcases List.mem_cons.mp hh with rfl | hh
            · exact Or.inl hv
            · exact Or.inr hh
        · rcases hst with hh | hh
          · exact Or.inl hh
          · rcases List.mem_cons.mp hh with rfl | hh
            · exact Or.inl hv
            · exact Or.inr hh
      · rw [if_neg hv] at h
        cases hinfo : get_commit_info objects sha with
        | error e =>
          rw [hinfo] at h
          simp at h
        | ok info =>
          rw [hinfo] at h
          dsimp only at h
          have hreach : Reaches objects start sha := hrs sha (by simp)
          refine ih _ _ _ l h ?_ ?_ ?_ ?_ ?_ ?_
          · intro x
            simp only [List.mem_append, List.mem_singleton, List.mem_cons]
            rw [hvc x]
            tauto
          · have hns : sha ∉ commits := fun hc => hv ((hvc sha).mp hc)
            rw [List.nodup_append]
            refine ⟨hnd, by simp, ?_⟩
            intro x hx hx2
            simp only [List.mem_singleton] at hx2
            subst hx2
            exact hns hx
          · intro s hs
            rw [mem_walk_push] at hs
            rcases hs with hs | ⟨hsp, hsne, _⟩
            · exact hrs s (by simp [hs])
            · exact Relation.ReflTransGen.tail hreach ⟨hsne, info, hinfo, hsp⟩
          · intro v hvv
            rcases List.mem_cons.mp hvv with rfl | hvv
            · exact hreach
            · exact hrv v hvv
          · intro v hvv pr hpr
            rcases List.mem_cons.mp hvv with rfl | hvv
            · obtain ⟨hne, info2, hinfo2, hmem⟩ := hpr
              rw [hinfo] at hinfo2
              have hi2 : info = info2 := by
                injection hinfo2
              subst hi2
              by_cases hpv : pr ∈ v :: visited
              · exact Or.inl hpv
              · right
                rw [mem_walk_push]
                exact Or.inr ⟨hmem, hne, hpv⟩
            · rcases hcl v hvv pr hpr with hh | hh
              · exact Or.inl (by simp [hh])
              · rcases List.mem_cons.mp hh with rfl | hh
                · exact Or.inl (by simp)
                · right
                  rw [mem_walk_push]
                  exact Or.inl hh
          · rcases hst with hh | hh
            · exact Or.inl (by simp [hh])
            · rcases List.mem_cons.mp hh with rfl | hh
              · exact Or.inl (by simp)
              · right
                rw [mem_walk_push]
                exact Or.inl hh

/-- C1: whenever `get_commit_history` succeeds — head resolved to `start`,
walk returned the sequence `l` — `l` lists every commit reachable from
`start` along (nonempty) parent references exactly once and nothing else;
consequently `l.length` equals the cardinality of any finite set capturing
the reachable set.  Merge commits push all their parents, so multi-parent
graphs are covered. -/
theorem walkHistory_reachable_exactly_once (gd : GitDir) (start : Str) (l : List Str)
    (hres : resolveHead gd = .ok start)
    (hrun : get_commit_history gd = some (.ok l)) :
    l.Nodup ∧ (∀ x, x ∈ l ↔ Reaches gd.objects start x) ∧
      ∀ s : Finset Str, (∀ x, x ∈ s ↔ Reaches gd.objects start x) →
        l.length = s.card := by
  rw [get_commit_history, hres] at hrun
  dsimp only at hrun
  have hmain := walkLoop_ok gd.objects start (pyWalkFuel gd.objects) [start] [] [] l hrun
    (by simp) (by simp)
    (by intro s hs; simp only [List.mem_singleton] at hs; subst hs; exact .refl)
    (by simp) (by simp) (by simp)
  refine ⟨hmain.1, hmain.2, ?_⟩
  intro s hs
  have hts : l.toFinset = s := by
    apply Finset.ext
    intro x
    rw [List.mem_toFinset, hmain.2 x, hs x]
  rw [← hts]
  exact (List.toFinset_card_of_nodup hmain.1).symm

/-- The store for the C1 witness: a merge — `cc` has parents `a1` and
`b1`, both children of the root `d0`. -/
def objsWalk : Objects :=
  [(hashStr 0xCC,
    mkCommitObj
      ("tree 0101010101010101010101010101010101010101\nparent a1a1a1a1a1a1a1a1a1a1a1a1a1a1a1a1a1a1a1a1\nparent b1b1b1b1b1b1b1b1b1b1b1b1b1b1b1b1b1b1b1b1\n\nmerge")),
   (hashStr 0xA1,
    mkCommitObj ("parent d0d0d0d0d0d0d0d0d0d0d0d0d0d0d0d0d0d0d0d0\n\nfeature a")),
   (hashStr 0xB1,
    mkCommitObj ("parent d0d0d0d0d0d0d0d0d0d0d0d0d0d0d0d0d0d0d0d0\n\nfeature b")),
   (hashStr 0xD0, mkCommitObj ("root commit"))]

/-- The git directory for the C1 witness, with one level of `ref:`
indirection in `HEAD`. -/
def gitdirWalk : GitDir :=
  { gitDirExists := true,
    headFile := some ("ref: refs/heads/main\n".toList),
    refFiles := [("refs/heads/main".toList,
      "cccccccccccccccccccccccccccccccccccccccc\n".toList)],
    objects := objsWalk }

set_option maxRecDepth 100000 in
/-- C1 witness: on the merge graph the walk succeeds with the four
commits, each once (reachability order: head, last parent first). -/
theorem walkHistory_reachable_witness :
    ([hashStr 0xCC, hashStr 0xB1, hashStr 0xD0, hashStr 0xA1] : List Str).Nodup ∧
    (hashStr 0xA1 ∈ ([hashStr 0xCC, hashStr 0xB1, hashStr 0xD0, hashStr 0xA1] : List Str) ↔
      Reaches gitdirWalk.objects (hashStr 0xCC) (hashStr 0xA1)) :=
  have h := walkHistory_reachable_exactly_once gitdirWalk (hashStr 0xCC)
    [hashStr 0xCC, hashStr 0xB1, hashStr 0xD0, hashStr 0xA1] rfl rfl
  ⟨h.1, h.2.1 (hashStr 0xA1)⟩

/- ### Paths, full-tree enumerator and dependency-graph builder -/

/-- The `'/'.join` of path pieces. -/
def joinSlash : List Str → Str
  | [] => []
  | [p] => p
  | p :: ps => p ++ '/' :: joinSlash ps

/-- The `parent_directory` (source lines 242-246). -/
def parent_directory (path : Str) : Option Str :=
  let parts := splitOnChar '/' path
  if 1 < parts.length then some (joinSlash parts.dropLast) else none

/-- The `for i in range(1, len(parts)): dirs.add('/'.join(parts[:i]))` — the
ancestor-prefix loop shared by `build_dependency_graph` (lines 224-227,
233-236) and `get_all_files_and_dirs` (lines 201-204). -/
def addPathAncestors (dirs : List Str) (f : Str) : List Str :=
  (List.range' 1 ((splitOnChar '/' f).length - 1)).foldl
    (fun ds i => setAdd ds (joinSlash ((splitOnChar '/' f).take i))) dirs

/-- The entry loop of `traverse_tree` (source lines 190-204), fuel-indexed:
read each entry's object and branch on its declared type; a tree adds the
accumulated path to `dirs` and recurses into the subtree; anything else
adds the path to `files` and every proper ancestor prefix to `dirs`.  The
state is the `(files, dirs)` pair of sets.  Fuel only cuts runs short
(mirroring Python's own recursion limit); the scenario bounds are generous. -/
def travEntries (objects : Objects) :
    Nat → List (Str × Str) → Str → List Str × List Str →
      Option (Except PyErr (List Str × List Str))
  | 0, _, _, _ => none
  | _ + 1, [], _, st => some (.ok st)
  | f + 1, (name, objHash) :: rest, pfx, st =>
    match read_git_object objects objHash with
    | .error e => some (.error e)
    | .ok odata =>
      match parse_git_object odata with
      | .error e => some (.error e)
      | .ok (oty, _osz, _ocontent) =>
        if oty = "tree".toList then
          match read_tree objects objHash with
          | .error e => some (.error e)
          | .ok subEntries =>
            match travEntries objects f subEntries
                (if pfx = [] then name else pfx ++ '/' :: name)
                (st.1, setAdd st.2 (if pfx = [] then name else pfx ++ '/' :: name)) with
            | none => none
            | some (.error e) => some (.error e)
            | some (.ok st2) => travEntries objects f rest pfx st2
        else
          travEntries objects f rest pfx
            (setAdd st.1 (if pfx = [] then name else pfx ++ '/' :: name),
              addPathAncestors st.2 (if pfx = [] then name else pfx ++ '/' :: name))

/-- The `traverse_tree(t_hash, prefix)`: read the tree, loop over its entries. -/
def traverseTree (objects : Objects) (fuel : Nat) (thash : Str) (pfx : Str)
    (st : List Str × List Str) : Option (Except PyErr (List Str × List Str)) :=
  match read_tree objects thash with
  | .error e => some (.error e)
  | .ok entries => travEntries objects fuel entries pfx st

/-- A generous step bound for the enumerator. -/
def enumFuel (objects : Objects) : Nat :=
  2 + objects.foldl (fun n pr => n + pr.2.length + 1) 0

/-- The `get_all_files_and_dirs` (source lines 173-206): resolve the commit's
tree (tree-only scan, stopping at the first blank line, `if not tree_hash`
fatal) and enumerate the snapshot from its root. -/
def get_all_files_and_dirs (objects : Objects) (commitHash : Str) :
    Option (Except PyErr (List Str × List Str)) :=
  match read_git_object objects commitHash with
  | .error e => some (.error e)
  | .ok data =>
    match parse_git_object data with
    | .error e => some (.error e)
    | .ok (ty, _sz, content) =>
      if ty = "commit".toList then
        let th := scanTreeOnly none (splitLinesPy (decodeReplace content))
        if th.getD [] = [] then some (.error .noTreeInCommit)
        else traverseTree objects (enumFuel objects) (th.getD []) [] ([], [])
      else some (.error .notACommit)

/-- The `graph_data`: the commit dict (commit → changed files) plus the
`files` and `dirs` sets. -/
structure GraphData : Type where
  commits : List (Str × List Str)
  files : List Str
  dirs : List Str
  deriving DecidableEq

/-- One changed or enumerated file: `files.add(f)` plus a dir entry for
every proper ancestor prefix (source lines 222-227 / 231-236). -/
def addChanged (g : GraphData) (f : Str) : GraphData :=
  { g with files := setAdd g.files f, dirs := addPathAncestors g.dirs f }

/-- The per-commit step of the builder's first loop: record the changed
files under the commit key, then fold them into `files`/`dirs`. -/
def applyChanged (g : GraphData) (c : Str) (cf : List Str) : GraphData :=
  cf.foldl addChanged { g with commits := pyDictInsert g.commits c cf }

/-- The final-snapshot completion (source lines 229-238): fold in the
enumerated files (with ancestors), then the enumerated dirs. -/
def addAllFound (g : GraphData) (afiles adirs : List Str) : GraphData :=
  { afiles.foldl addChanged g with
    dirs := adirs.foldl setAdd (afiles.foldl addChanged g).dirs }

/-- The spec's `assemble` (§4.8): the body of `build_dependency_graph`
with the per-commit diff outputs and the enumeration results supplied as
inputs, exactly as the source consumes them (the enumeration is consumed
only when the commit list is nonempty — `if commits:`). -/
def assembleGraph (commits : List Str) (changes : Str → List Str)
    (afiles adirs : List Str) : GraphData :=
  let g1 := commits.foldl (fun g c => applyChanged g c (changes c)) ⟨[], [], []⟩
  if commits = [] then g1 else addAllFound g1 afiles adirs

/-- The `build_dependency_graph` (source lines 208-240): per-commit diffs with
`except RuntimeError` degrading to an empty change list (a warning);
non-`RuntimeError` exceptions propagate; then, when there are commits, one
enumeration seeded at `commits[0]` (the newest commit). -/
def build_dependency_graph (objects : Objects) (commits : List Str) :
    Option (Except PyErr GraphData) :=
  match commits.foldlM
      (fun g c =>
        match get_commit_changes objects c with
        | .ok cf => Except.ok (applyChanged g c cf)
        | .error e =>
          if e.isRuntimeError then Except.ok (applyChanged g c [])
          else Except.error e)
      (⟨[], [], []⟩ : GraphData) with
  | .error e => some (.error e)
  | .ok g1 =>
    match commits with
    | [] => some (.ok g1)
    | c0 :: _ =>
      match get_all_files_and_dirs objects c0 with
      | none => none
      | some (.error e) => some (.error e)
      | some (.ok (afiles, adirs)) => some (.ok (addAllFound g1 afiles adirs))

/-- The edges written by `generate_dot_file` (source lines 269-293):
commit → parent dir of each changed name (the name itself when it is
root-level); dir → parent dir; dir → file. -/
def dotEdges (g : GraphData) : List (Str × Str) :=
  g.commits.flatMap
    (fun pr => pr.2.map (fun f =>
      match parent_directory f with
      | some pd => (pr.1, pd)
      | none => (pr.1, f))) ++
  g.dirs.filterMap (fun d => (parent_directory d).map (fun pd => (pd, d))) ++
  g.files.filterMap (fun f => (parent_directory f).map (fun pd => (pd, f)))

/-- The node keys written by `generate_dot_file` (lines 254-267). -/
def dotNodes (g : GraphData) : List Str :=
  g.commits.map Prod.fst ++ g.dirs ++ g.files

/- ### The three-commit scenario (C2) -/

/-- Tree object bytes from entries. -/
def mkTreeObj (ts : List (Str × Str × Bytes)) : Bytes :=
  mkObjBytes ("tree") (encodeTreeBody ts)

/-- The scenario store: commit1 adds `a.txt`, commit2 adds `dir/b.txt`,
commit3 modifies `a.txt`. -/
def objsDemo : Objects :=
  [(hashStr 0xC1, mkCommitObj ("tree 0101010101010101010101010101010101010101\n\nfirst")),
   (hashStr 0xC2,
    mkCommitObj
      ("tree 0202020202020202020202020202020202020202\nparent c1c1c1c1c1c1c1c1c1c1c1c1c1c1c1c1c1c1c1c1\n\nsecond")),
   (hashStr 0xC3,
    mkCommitObj
      ("tree 0303030303030303030303030303030303030303\nparent c2c2c2c2c2c2c2c2c2c2c2c2c2c2c2c2c2c2c2c2\n\nthird")),
   (hashStr 1, mkTreeObj [("100644".toList, "a.txt".toList, List.replicate 20 0x0A)]),
   (hashStr 2, mkTreeObj [("100644".toList, "a.txt".toList, List.replicate 20 0x0A),
     ("40000".toList, "dir".toList, List.replicate 20 0x0D)]),
   (hashStr 3, mkTreeObj [("100644".toList, "a.txt".toList, List.replicate 20 0x1A),
     ("40000".toList, "dir".toList, List.replicate 20 0x0D)]),
   (hashStr 0x0D, mkTreeObj [("100644".toList, "b.txt".toList, List.replicate 20 0x0B)]),
   (hashStr 0x0A, mkObjBytes ("blob") (utf8EncodeStr ("v1".toList))),
   (hashStr 0x1A, mkObjBytes ("blob") (utf8EncodeStr ("v2".toList))),
   (hashStr 0x0B, mkObjBytes ("blob") (utf8EncodeStr ("bee".toList)))]

/-- The graph the scenario produces. -/
def gDemoCommits : List (Str × List Str) :=
  [(hashStr 0xC3, ["a.txt".toList]), (hashStr 0xC2, ["dir".toList]),
   (hashStr 0xC1, ["a.txt".toList])]

/-- The scenario graph value. -/
def gDemo : GraphData :=
  { commits := gDemoCommits,
    files := ["a.txt".toList, "dir".toList, "dir/b.txt".toList],
    dirs := ["dir".toList] }

set_option maxRecDepth 200000 in
/-- C2 counterexample: in the three-commit scenario the changed top-level
name `dir` — a tree — lands in the `files` set (the builder files every
changed name), so the FileNode keys are not exactly {a.txt, dir/b.txt} and
the FileNode/DirNode classes are not disjoint: `dir` is in both. -/
theorem graph_filenode_dirnode_overlap_cex :
    build_dependency_graph objsDemo [hashStr 0xC3, hashStr 0xC2, hashStr 0xC1] =
      some (.ok gDemo) ∧
    "dir".toList ∈ gDemo.files ∧ "dir".toList ∈ gDemo.dirs :=
  ⟨rfl, by decide, by decide⟩

set_option maxRecDepth 200000 in
/-- C2 (amended): in the scenario the FileNode keys are exactly
{a.txt, dir, dir/b.txt} — the enumerated blob paths together with every
changed top-level name, tree names included — the DirNode keys exactly
{dir} and the CommitNode keys exactly the three commit hashes; the
CommitNode keys are disjoint from the path keys here, while FileNodes and
DirNodes overlap at `dir`. -/
theorem scenario_graph_amended :
    build_dependency_graph objsDemo [hashStr 0xC3, hashStr 0xC2, hashStr 0xC1] =
      some (.ok gDemo) ∧
    (∀ x, x ∈ gDemo.files ↔
      (x = "a.txt".toList ∨ x = "dir".toList ∨ x = "dir/b.txt".toList)) ∧
    gDemo.dirs = ["dir".toList] ∧
    gDemo.commits.map Prod.fst = [hashStr 0xC3, hashStr 0xC2, hashStr 0xC1] ∧
    (∀ x ∈ gDemo.commits.map Prod.fst, x ∉ gDemo.files ∧ x ∉ gDemo.dirs) :=
  ⟨rfl, by intro x; simp [gDemo], by rfl, by rfl, by decide⟩

/- ### C3: no dangling edges -/

theorem split_join_slash :
    ∀ l : List Str, l ≠ [] → (∀ p ∈ l, '/' ∉ p) → splitOnChar '/' (joinSlash l) = l := by
  intro l
  induction l with
  | nil => intro h _; exact absurd rfl h
  | cons p ps ih =>
    intro _ hmem
    cases ps with
    | nil => exact splitOnChar_not_mem '/' p (hmem p (by simp))
    | cons q qs =>
      have hj : joinSlash (p :: q :: qs) = p ++ '/' :: joinSlash (q :: qs) := rfl
      rw [hj, splitOnChar_append_sep '/' p _ (hmem p (by simp))]
      rw [ih (by simp) (fun x hx => hmem x (by simp [hx]))]

theorem mem_foldl_setAdd_map {α β : Type} [DecidableEq β] (g : α → β) :
    ∀ (l : List α) (init : List β) (x : β),
      x ∈ l.foldl (fun s a => setAdd s (g a)) init ↔ x ∈ init ∨ ∃ a ∈ l, x = g a := by
  intro l
  induction l with
  | nil => simp
  | cons a as ih =>
    intro init x
    simp only [List.foldl_cons]
    rw [ih, mem_setAdd]
    constructor
    · rintro ((hx | rfl) | ⟨b, hb, rfl⟩)
      · exact Or.inl hx
      · exact Or.inr ⟨a, by simp, rfl⟩
      · exact Or.inr ⟨b, by simp [hb], rfl⟩
    · rintro (hx | ⟨b, hb, rfl⟩)
      · exact Or.inl (Or.inl hx)
      · rcases List.mem_cons.mp hb with rfl | hb
        · exact Or.inl (Or.inr rfl)
        · exact Or.inr ⟨b, hb, rfl⟩

theorem mem_addPathAncestors (dirs : List Str) (f : Str) (x : Str) :
    x ∈ addPathAncestors dirs f ↔ x ∈ dirs ∨
      ∃ i, 1 ≤ i ∧ i ≤ (splitOnChar '/' f).length - 1 ∧
        x = joinSlash ((splitOnChar '/' f).take i) := by
  rw [addPathAncestors,
    mem_foldl_setAdd_map (fun i => joinSlash ((splitOnChar '/' f).take i))]
  constructor
  · rintro (hx | ⟨i, hi, rfl⟩)
    · exact Or.inl hx
    · rw [List.mem_range'] at hi
      obtain ⟨j, hj, rfl⟩ := hi
      exact Or.inr ⟨1 + 1 * j, by omega, by omega, rfl⟩
  · rintro (hx | ⟨i, hi1, hi2, rfl⟩)
    · exact Or.inl hx
    · refine Or.inr ⟨i, ?_, rfl⟩
      rw [List.mem_range']
      exact ⟨i - 1, by omega, by omega⟩

theorem parent_directory_join_take (f : Str) (i : Nat) (h1 : 1 ≤ i)
    (hl : i ≤ (splitOnChar '/' f).length) :
    parent_directory (joinSlash ((splitOnChar '/' f).take i)) =
      if i = 1 then none else some (joinSlash ((splitOnChar '/' f).take (i - 1))) := by
  have hP : ∀ p ∈ (splitOnChar '/' f).take i, '/' ∉ p :=
    fun p hp => mem_splitOnChar_not_mem '/' f p (List.mem_of_mem_take hp)
  have hlen : ((splitOnChar '/' f).take i).length = i := by
    rw [List.length_take]
    omega
  have htne : (splitOnChar '/' f).take i ≠ [] := by
    intro hnil
    rw [hnil] at hlen
    simp at hlen
    omega
  rw [parent_directory]
  try dsimp only
  rw [split_join_slash _ htne hP, hlen]
  by_cases hi : i = 1
  · subst hi
    rw [if_neg (by omega), if_pos rfl]
  · rw [if_pos (by omega), if_neg hi]
    have hdl : ((splitOnChar '/' f).take i).dropLast = (splitOnChar '/' f).take (i - 1) := by
      rw [List.dropLast_eq_take, hlen, List.take_take]
      congr 1
      omega
    rw [hdl]

theorem parent_mem_addPathAncestors (dirs : List Str) (f pd : Str)
    (h : parent_directory f = some pd) : pd ∈ addPathAncestors dirs f := by
  rw [parent_directory] at h
  try dsimp only at h
  by_cases hlen : 1 < (splitOnChar '/' f).length
  · rw [if_pos hlen] at h
    have hpd : pd = joinSlash ((splitOnChar '/' f).dropLast) := by
      injection h with h
      exact h.symm
    rw [mem_addPathAncestors]
    right
    refine ⟨(splitOnChar '/' f).length - 1, by omega, by omega, ?_⟩
    rw [hpd]
    congr 1
    rw [List.dropLast_eq_take]
  · rw [if_neg hlen] at h
    exact absurd h (by simp)

/-- Ancestor-closure of a set of directory paths. -/
def DirsClosed (dirs : List Str) : Prop :=
  ∀ d ∈ dirs, ∀ pd, parent_directory d = some pd → pd ∈ dirs

theorem dirsClosed_addPathAncestors (dirs : List Str) (f : Str)
    (h : DirsClosed dirs) : DirsClosed (addPathAncestors dirs f) := by
  intro d hd pd hpd
  rw [mem_addPathAncestors] at hd
  rcases hd with hd | ⟨i, hi1, hi2, rfl⟩
  · rw [mem_addPathAncestors]
    exact Or.inl (h d hd pd hpd)
  · have hptake := parent_directory_join_take f i hi1 (by omega)
    by_cases hi : i = 1
    · rw [hptake, if_pos hi] at hpd
      exact absurd hpd (by simp)
    · rw [hptake, if_neg hi] at hpd
      injection hpd with hpd
      rw [mem_addPathAncestors]
      right
      exact ⟨i - 1, by omega, by omega, hpd.symm⟩

theorem dirsClosed_foldl_setAdd (dirs adirs : List Str)
    (h : DirsClosed dirs)
    (hAC : ∀ d ∈ adirs, ∀ pd, parent_directory d = some pd → pd ∈ adirs) :
    DirsClosed (adirs.foldl setAdd dirs) := by
  intro d hd pd hpd
  rw [mem_foldl_setAdd] at hd ⊢
  rcases hd with hd | hd
  · exact Or.inl (h d hd pd hpd)
  · exact Or.inr (hAC d hd pd hpd)

/-- Every edge the dot emitter can draw from this graph lands on nodes:
each commit's changed files are in `files` with their parents in `dirs`,
each file's parent is in `dirs`, and `dirs` is ancestor-closed. -/
def GoodGraph (g : GraphData) : Prop :=
  (∀ pr ∈ g.commits, ∀ f ∈ pr.2, f ∈ g.files ∧
    ∀ pd, parent_directory f = some pd → pd ∈ g.dirs) ∧
  (∀ f ∈ g.files, ∀ pd, parent_directory f = some pd → pd ∈ g.dirs) ∧
  DirsClosed g.dirs

theorem foldl_addChanged_commits (cf : List Str) :
    ∀ g : GraphData, (cf.foldl addChanged g).commits = g.commits := by
  induction cf with
  | nil => intro g; rfl
  | cons f fs ih => intro g; rw [List.foldl_cons, ih]; rfl

theorem mem_foldl_addChanged_files (cf : List Str) :
    ∀ (g : GraphData) (x : Str),
      x ∈ (cf.foldl addChanged g).files ↔ x ∈ g.files ∨ x ∈ cf := by
  induction cf with
  | nil => simp
  | cons f fs ih =>
    intro g x
    rw [List.foldl_cons, ih]
    show x ∈ setAdd g.files f ∨ x ∈ fs ↔ _
    rw [mem_setAdd]
    simp only [List.mem_cons]
    tauto

theorem subset_foldl_addChanged_dirs (cf : List Str) :
    ∀ (g : GraphData) (x : Str), x ∈ g.dirs → x ∈ (cf.foldl addChanged g).dirs := by
  induction cf with
  | nil => intro g x h; exact h
  | cons f fs ih =>
    intro g x h
    rw [List.foldl_cons]
    apply ih
    show x ∈ addPathAncestors g.dirs f
    rw [mem_addPathAncestors]
    exact Or.inl h

theorem foldl_addChanged_parent (cf : List Str) :
    ∀ (g : GraphData) (f : Str), f ∈ cf → ∀ pd, parent_directory f = some pd →
      pd ∈ (cf.foldl addChanged g).dirs := by
  induction cf with
  | nil => intro g f h; simp at h
  | cons f0 fs ih =>
    intro g f hf pd hpd
    rw [List.foldl_cons]
    rcases List.mem_cons.mp hf with rfl | hf
    · apply subset_foldl_addChanged_dirs
      show pd ∈ addPathAncestors g.dirs f
      exact parent_mem_addPathAncestors g.dirs f pd hpd
    · exact ih _ f hf pd hpd

theorem dirsClosed_foldl_addChanged (cf : List Str) :
    ∀ g : GraphData, DirsClosed g.dirs → DirsClosed ((cf.foldl addChanged g).dirs) := by
  induction cf with
  | nil => intro g h; exact h
  | cons f fs ih =>
    intro g h
    rw [List.foldl_cons]
    exact ih _ (dirsClosed_addPathAncestors g.dirs f h)

theorem mem_pyDictInsert {α β : Type} [DecidableEq α] (d : List (α × β)) (k : α) (v : β)
    (pr : α × β) (h : pr ∈ pyDictInsert d k v) : pr ∈ d ∨ pr = (k, v) := by
  rw [pyDictInsert] at h
  split at h
  · rcases List.mem_map.mp h with ⟨q, hq, hq2⟩
    by_cases hk : q.1 = k
    · rw [if_pos hk] at hq2
      exact Or.inr hq2.symm
    · rw [if_neg hk] at hq2
      exact Or.inl (hq2 ▸ hq)
  · rcases List.mem_append.mp h with hq | hq
    · exact Or.inl hq
    · simp only [List.mem_singleton] at hq
      exact Or.inr hq

theorem goodGraph_applyChanged (g : GraphData) (c : Str) (cf : List Str)
    (hg : GoodGraph g) : GoodGraph (applyChanged g c cf) := by
  obtain ⟨hgc, hgf, hgd⟩ := hg
  rw [applyChanged]
  refine ⟨?_, ?_, ?_⟩
  · intro pr hpr f hf
    rw [foldl_addChanged_commits] at hpr
    have hpr2 := mem_pyDictInsert g.commits c cf pr hpr
    constructor
    · rw [mem_foldl_addChanged_files]
      rcases hpr2 with hpr2 | rfl
      · exact Or.inl ((hgc pr hpr2 f hf).1)
      · exact Or.inr hf
    · intro pd hpd
      rcases hpr2 with hpr2 | rfl
      · exact subset_foldl_addChanged_dirs cf _ pd ((hgc pr hpr2 f hf).2 pd hpd)
      · exact foldl_addChanged_parent cf _ f hf pd hpd
  · intro f hf pd hpd
    rw [mem_foldl_addChanged_files] at hf
    rcases hf with hf | hf
    · exact subset_foldl_addChanged_dirs cf _ pd (hgf f hf pd hpd)
    · exact foldl_addChanged_parent cf _ f hf pd hpd
  · exact dirsClosed_foldl_addChanged cf _ hgd

theorem goodGraph_commits_fold (commits : List Str) (changes : Str → List Str) :
    ∀ g : GraphData, GoodGraph g →
      GoodGraph (commits.foldl (fun g c => applyChanged g c (changes c)) g) := by
  induction commits with
  | nil => intro g h; exact h
  | cons c cs ih =>
    intro g h
    rw [List.foldl_cons]
    exact ih _ (goodGraph_applyChanged g c (changes c) h)

theorem goodGraph_foldl_addChanged (cf : List Str) (g : GraphData) (hg : GoodGraph g) :
    GoodGraph (cf.foldl addChanged g) := by
  obtain ⟨hgc, hgf, hgd⟩ := hg
  refine ⟨?_, ?_, dirsClosed_foldl_addChanged cf g hgd⟩
  · intro pr hpr f hf
    rw [foldl_addChanged_commits] at hpr
    exact ⟨(mem_foldl_addChanged_files cf g f).mpr (Or.inl ((hgc pr hpr f hf).1)),
      fun pd hpd => subset_foldl_addChanged_dirs cf g pd ((hgc pr hpr f hf).2 pd hpd)⟩
  · intro f hf pd hpd
    rw [mem_foldl_addChanged_files] at hf
    rcases hf with hf | hf
    · exact subset_foldl_addChanged_dirs cf g pd (hgf f hf pd hpd)
    · exact foldl_addChanged_parent cf g f hf pd hpd

theorem goodGraph_addAllFound (g : GraphData) (afiles adirs : List Str)
    (hg : GoodGraph g)
    (hAC : ∀ d ∈ adirs, ∀ pd, parent_directory d = some pd → pd ∈ adirs) :
    GoodGraph (addAllFound g afiles adirs) := by
  obtain ⟨h2c, h2f, h2d⟩ := goodGraph_foldl_addChanged afiles g hg
  rw [addAllFound]
  refine ⟨?_, ?_, ?_⟩
  · intro pr hpr f hf
    refine ⟨(h2c pr hpr f hf).1, ?_⟩
    intro pd hpd
    show pd ∈ adirs.foldl setAdd (afiles.foldl addChanged g).dirs
    rw [mem_foldl_setAdd]
    exact Or.inl ((h2c pr hpr f hf).2 pd hpd)
  · intro f hf pd hpd
    show pd ∈ adirs.foldl setAdd (afiles.foldl addChanged g).dirs
    rw [mem_foldl_setAdd]
    exact Or.inl (h2f f hf pd hpd)
  · exact dirsClosed_foldl_setAdd _ adirs h2d hAC

theorem goodGraph_empty : GoodGraph ⟨[], [], []⟩ := by
  refine ⟨?_, ?_, ?_⟩ <;> intro x hx <;> simp at hx

theorem goodGraph_assembleGraph (commits : List Str) (changes : Str → List Str)
    (afiles adirs : List Str)
    (hAC : ∀ d ∈ adirs, ∀ pd, parent_directory d = some pd → pd ∈ adirs) :
    GoodGraph (assembleGraph commits changes afiles adirs) := by
  rw [assembleGraph]
  have hg1 := goodGraph_commits_fold commits changes ⟨[], [], []⟩ goodGraph_empty
  by_cases hc : commits = []
  · rw [if_pos hc]
    exact hg1
  · rw [if_neg hc]
    exact goodGraph_addAllFound _ afiles adirs hg1 hAC

theorem mem_dotNodes_commit (g : GraphData) (c : Str)
    (h : c ∈ g.commits.map Prod.fst) : c ∈ dotNodes g := by
  rw [dotNodes]
  simp only [List.mem_append]
  exact Or.inl (Or.inl h)

theorem mem_dotNodes_dir (g : GraphData) (d : Str) (h : d ∈ g.dirs) : d ∈ dotNodes g := by
  rw [dotNodes]
  simp only [List.mem_append]
  exact Or.inl (Or.inr h)

theorem mem_dotNodes_file (g : GraphData) (f : Str) (h : f ∈ g.files) : f ∈ dotNodes g := by
  rw [dotNodes]
  simp only [List.mem_append]
  exact Or.inr h

theorem goodGraph_dotEdges (g : GraphData) (hg : GoodGraph g) :
    ∀ e ∈ dotEdges g, e.1 ∈ dotNodes g ∧ e.2 ∈ dotNodes g := by
  obtain ⟨hgc, hgf, hgd⟩ := hg
  intro e he
  rw [dotEdges] at he
  rcases List.mem_append.mp he with he | hef
  rcases List.mem_append.mp he with he | he
  · rcases List.mem_flatMap.mp he with ⟨pr, hpr, he2⟩
    rcases List.mem_map.mp he2 with ⟨f, hf, he3⟩
    have hcnode := mem_dotNodes_commit g pr.1 (List.mem_map_of_mem Prod.fst hpr)
    cases hpd : parent_directory f with
    | some pd =>
      rw [hpd] at he3
      dsimp only at he3
      subst he3
      exact ⟨hcnode, mem_dotNodes_dir g pd ((hgc pr hpr f hf).2 pd hpd)⟩
    | none =>
      rw [hpd] at he3
      dsimp only at he3
      subst he3
      exact ⟨hcnode, mem_dotNodes_file g f ((hgc pr hpr f hf).1)⟩
  · rcases List.mem_filterMap.mp he with ⟨d, hd, hmap⟩
    cases hpd : parent_directory d with
    | none =>
      rw [hpd] at hmap
      simp at hmap
    | some pd =>
      rw [hpd] at hmap
      have he4 : (pd, d) = e := by simpa using hmap
      subst he4
      exact ⟨mem_dotNodes_dir g pd (hgd d hd pd hpd), mem_dotNodes_dir g d hd⟩
  · rcases List.mem_filterMap.mp hef with ⟨f, hf, hmap⟩
    cases hpd : parent_directory f with
    | none =>
      rw [hpd] at hmap
      simp at hmap
    | some pd =>
      rw [hpd] at hmap
      have he4 : (pd, f) = e := by simpa using hmap
      subst he4
      exact ⟨mem_dotNodes_dir g pd (hgf f hf pd hpd), mem_dotNodes_file g f hf⟩

/-- C3 (amended): for every combination of walked commits, per-commit diff
outputs and enumerated files, and for enumerated directories that are
ancestor-closed — as `get_all_files_and_dirs` always produces, recording
each tree path along the descent — every edge endpoint the dot emitter
writes for the assembled graph has a node of some class in the same graph.
Ancestor-closure is needed: for fully arbitrary directory inputs the claim
fails (see the counterexample). -/
theorem assemble_edges_have_nodes (commits : List Str) (changes : Str → List Str)
    (afiles adirs : List Str)
    (hAC : ∀ d ∈ adirs, ∀ pd, parent_directory d = some pd → pd ∈ adirs) :
    ∀ e ∈ dotEdges (assembleGraph commits changes afiles adirs),
      e.1 ∈ dotNodes (assembleGraph commits changes afiles adirs) ∧
      e.2 ∈ dotNodes (assembleGraph commits changes afiles adirs) :=
  goodGraph_dotEdges _ (goodGraph_assembleGraph commits changes afiles adirs hAC)

/-- C3 counterexample: with the arbitrary enumerated-dirs input {a/b} (no
enumerated `a`), the emitter writes the edge a → a/b although no node `a`
exists in the graph — the claim is false for arbitrary combinations of
inputs. -/
theorem assemble_dangling_edge_cex :
    ("a".toList, "a/b".toList) ∈
      dotEdges (assembleGraph ["c0".toList] (fun _ => []) [] ["a/b".toList]) ∧
    "a".toList ∉ dotNodes (assembleGraph ["c0".toList] (fun _ => []) [] ["a/b".toList]) := by
  decide

/-- C3 witness: a concrete admissible input, checked at one edge. -/
theorem assemble_edges_have_nodes_witness :
    "c0".toList ∈ dotNodes
        (assembleGraph ["c0".toList] (fun _ => ["x.txt".toList]) ["dir/b.txt".toList]
          ["dir".toList]) ∧
    "x.txt".toList ∈ dotNodes
        (assembleGraph ["c0".toList] (fun _ => ["x.txt".toList]) ["dir/b.txt".toList]
          ["dir".toList]) :=
  assemble_edges_have_nodes ["c0".toList] (fun _ => ["x.txt".toList]) ["dir/b.txt".toList]
    ["dir".toList]
    (by
      intro d hd pd hpd
      simp only [List.mem_singleton] at hd
      subst hd
      rw [show parent_directory ("dir".toList) = none from rfl] at hpd
      exact Option.noConfusion hpd)
    ("c0".toList, "x.txt".toList) (by decide)

end GitViz
